import Mathlib

/-!
# netcoredbg `platform.cpp`: the redirected I/O bridge

A shallow embedding of `src/debug/netcoredbg/platform.cpp`:

* `fdbuf`, the `std::streambuf` over a raw descriptor (lines 196-292);
* `IORedirectServer`, its constructor, `WaitForConnection`, `RedirectOutput`
  and destructor (lines 294-397, 419-447);
* the forwarder loop returned by `GetFdReadFunction` (lines 399-417).

Pointers into the two character arrays of an `fdbuf` are offsets (`Nat`) from
the start of the array they point into, so `pbase()` and `eback()` are offset
`0`.  Every result that the operating system chooses (the value returned by
`::write`, the bytes and `errno` produced by `::read`, the descriptors returned
by `dup`, `pipe`, `socket`, `accept`, ...) is an explicit argument of the
function that makes the call, and every call is recorded, in program order, in
a list of `Event`s that the function returns.
-/

namespace Netcoredbg

/-! ## Characters, system calls -/

/-- A C++ `char` seen as its unsigned value. -/
abbrev Byte := Fin 256

/-- The value `traits_type::eof()`. -/
def eof : Int := -1

/-- The conversion `traits_type::to_char_type`: an `int` truncated to a `char`. -/
def to_char_type (c : Int) : Byte := Fin.ofNat (c % 256).toNat

/-- The conversion `traits_type::to_int_type`: the unsigned value of a `char`. -/
def to_int_type (b : Byte) : Int := (b.val : Int)

/-- The function `traits_type::not_eof`: `c` unless `c` is `eof`. -/
def not_eof (c : Int) : Int := if c = eof then 0 else c

/-- The constant `EINTR` of `<errno.h>`. -/
def EINTR : Int := 4

/-- The constant `PIPE_BUF` of `<linux/limits.h>`. -/
def PIPE_BUF : Nat := 4096

/-- The value of `sizeof(int)` on the platforms the debugger is built for. -/
def sizeof_int : Nat := 4

/-- The enumerator `bufsize` of `fdbuf`. -/
def bufsize : Nat := 1024

/-- An identifier for a `std::function<void(std::string)>` callback. -/
abbrev Callback := Nat

/-- What happened, in program order.  All constructors but `poke` are system
calls; `poke idx` is the assignment `*this->pptr() = ...` of `fdbuf::overflow`,
with `idx` the offset of `pptr()` in `outbuf_`. -/
inductive Event where
  | write (fd : Int) (buf : List Byte) (done : Int)
  | read (fd : Int) (count : Nat)
  | close (fd : Int)
  | dup (fd : Int)
  | pipe
  | dup2 (oldfd newfd : Int)
  | socket
  | setsockopt (fd : Int)
  | bind (fd : Int) (port : Nat)
  | listen (fd : Int)
  | accept (fd : Int)
  | thread (fd : Int) (cb : Callback)
  | poke (idx : Nat)
  deriving DecidableEq, Repr

/-- The outcome of one `::read`: either it returns the number of bytes it has
stored at the start of the caller's buffer (zero at end of stream) and leaves
`errno` alone, or it returns `-1`, stores nothing and sets `errno`. -/
inductive ReadResult where
  | ok (bytes : List Byte)
  | fail (errno : Int)
  deriving DecidableEq, Repr

/-- The value `::read` returns. -/
def ReadResult.size : ReadResult → Int
  | .ok bytes => (bytes.length : Int)
  | .fail _ => -1

/-- The bytes `::read` has stored. -/
def ReadResult.bytes : ReadResult → List Byte
  | .ok bytes => bytes
  | .fail _ => []

/-- The value of `errno` after the call, given its value before. -/
def ReadResult.errno (r : ReadResult) (before : Int) : Int :=
  match r with
  | .ok _ => before
  | .fail e => e

/-- The kernel storing `bytes` into `buf` from offset `off` on. -/
def os_store (buf : List Byte) (off : Nat) : List Byte → List Byte
  | [] => buf
  | b :: bs => os_store (buf.set off b) (off + 1) bs

/-- The loop of `std::copy(first, first + n, dest)` inside one array:
`*dest++ = *first++`, `n` times. -/
def std_copy (buf : List Byte) (first dest : Nat) : Nat → List Byte
  | 0 => buf
  | n + 1 => std_copy (buf.set dest (buf.getD first 0)) (first + 1) (dest + 1) n

/-! ## `fdbuf` -/

/-- The class `fdbuf`: its three data members and the four pointers of the
`std::streambuf` base that move (`pbase()` and `eback()` are the array starts). -/
structure fdbuf where
  outbuf_ : List Byte
  inbuf_ : List Byte
  fd_ : Int
  pptr : Nat
  epptr : Nat
  gptr : Nat
  egptr : Nat
  deriving DecidableEq, Repr

/-- The pointer `pbase()`: the start of `outbuf_`. -/
def fdbuf.pbase (_ : fdbuf) : Nat := 0

/-- The pointer `eback()`: the start of `inbuf_`. -/
def fdbuf.eback (_ : fdbuf) : Nat := 0

/-- The private `fdbuf::fdsync()`; `done` is what `::write` returns if called
(`::write` returns at most the `size` it was given, so `size - done` is exact). -/
def fdbuf.fdsync (s : fdbuf) (done : Int) : fdbuf × Int × List Event :=
  let r : fdbuf × List Event :=
    if s.pbase ≠ s.pptr then
      let size := s.pptr - s.pbase
      let ev := [Event.write s.fd_ (s.outbuf_.take size) done]
      if 0 < done then
        ({ s with
            outbuf_ := std_copy s.outbuf_ (s.pbase + done.toNat) s.pbase (size - done.toNat)
            pptr := s.pbase + ((size : Int) - done).toNat }, ev)
      else (s, ev)
    else (s, [])
  (r.1, if r.1.pptr ≠ r.1.epptr then 0 else -1, r.2)

/-- The override `fdbuf::sync()`. -/
def fdbuf.sync (s : fdbuf) (done : Int) : fdbuf × Int × List Event :=
  s.fdsync done

/-- The override `fdbuf::overflow(int c)`. -/
def fdbuf.overflow (s : fdbuf) (c : Int) (done : Int) : fdbuf × Int × List Event :=
  let r : fdbuf × List Event :=
    if c ≠ eof then
      ({ s with outbuf_ := s.outbuf_.set s.pptr (to_char_type c), pptr := s.pptr + 1 },
        [Event.poke s.pptr])
    else (s, [])
  let q := r.1.sync done
  (q.1, if q.2.1 = -1 then eof else not_eof c, r.2 ++ q.2.2)

/-- The method `fdbuf::close()`. -/
def fdbuf.close (s : fdbuf) (done : Int) : fdbuf × List Event :=
  if ¬ (s.fd_ < 0) then
    let q := s.sync done
    (q.1, q.2.2 ++ [Event.close s.fd_])
  else (s, [])

/-- The method `fdbuf::open(int fd)`. -/
def fdbuf.open (s : fdbuf) (fd : Int) (done : Int) : fdbuf × List Event :=
  let q := s.close done
  ({ q.1 with fd_ := fd, gptr := 0, egptr := 0, pptr := 0, epptr := bufsize - 1 }, q.2)

/-- The constructor `fdbuf::fdbuf(int fd)`.  The arrays start with whatever the
allocation holds (`out0`, `in0`); the base-class pointers start null.  With
`fd_` at `-1` the `close()` inside `open` issues no `::write`, so the result
passed for it is immaterial. -/
def fdbuf.new (out0 in0 : List Byte) (fd : Int) : fdbuf × List Event :=
  fdbuf.open
    { outbuf_ := out0, inbuf_ := in0, fd_ := -1, pptr := 0, epptr := 0, gptr := 0, egptr := 0 }
    fd 0

/-- The destructor `fdbuf::~fdbuf()`. -/
def fdbuf.destroy (s : fdbuf) (done : Int) : List Event :=
  if ¬ (s.fd_ < 0) then
    let q := s.fdsync done
    q.2.2 ++ [Event.close s.fd_]
  else []

/-- The inherited `std::streambuf::sputc(char)`: store at the write position
when one is available, otherwise `overflow`. -/
def fdbuf.sputc (s : fdbuf) (b : Byte) (done : Int) : fdbuf × Int × List Event :=
  if s.pptr < s.epptr then
    ({ s with outbuf_ := s.outbuf_.set s.pptr b, pptr := s.pptr + 1 }, to_int_type b, [])
  else s.overflow (to_int_type b) done

/-- An operation on the output side: `writeByte` is `sputc`, `flush` is
`pubsync` (that is, `sync`).  Each carries the result of the `::write` it
may issue. -/
inductive Op where
  | writeByte (b : Byte) (done : Int)
  | flush (done : Int)
  deriving DecidableEq, Repr

/-- One output operation. -/
def fdbuf.step (s : fdbuf) : Op → fdbuf × Int × List Event
  | .writeByte b done => s.sputc b done
  | .flush done => s.sync done

/-- A sequence of output operations: the final adapter and everything that
happened. -/
def fdbuf.run (s : fdbuf) : List Op → fdbuf × List Event
  | [] => (s, [])
  | op :: ops =>
    let r := s.step op
    let r' := fdbuf.run r.1 ops
    (r'.1, r.2.2 ++ r'.2)

/-- The bytes given to `writeByte`, in order. -/
def written : List Op → List Byte
  | [] => []
  | .writeByte b _ :: ops => b :: written ops
  | .flush _ :: ops => written ops

/-- The bytes the descriptor has received: of each `::write` that returned
`done > 0`, the first `done` bytes of its buffer. -/
def transferred : List Event → List Byte
  | [] => []
  | .write _ buf done :: es => (if 0 < done then buf.take done.toNat else []) ++ transferred es
  | _ :: es => transferred es

/-- The bytes held in the put area: `[pbase(), pptr())`. -/
def fdbuf.pending (s : fdbuf) : List Byte := s.outbuf_.take s.pptr

/-- The offsets recorded by `poke` events. -/
def pokes : List Event → List Nat
  | [] => []
  | .poke i :: es => i :: pokes es
  | _ :: es => pokes es

/-- The descriptors passed to `::close`, in order. -/
def closes : List Event → List Int
  | [] => []
  | .close fd :: es => fd :: closes es
  | _ :: es => closes es

/-- An event is a `::write` that made progress within its request, or is not a
`::write`. -/
def Event.progress : Event → Prop
  | .write _ buf done => 1 ≤ done ∧ done ≤ (buf.length : Int)
  | _ => True

instance (e : Event) : Decidable e.progress := by
  cases e <;> unfold Event.progress <;> infer_instance

/-! ### The input side -/

/-- The override `fdbuf::underflow()`; `r` is the outcome of `::read` if called. -/
def fdbuf.underflow (s : fdbuf) (r : ReadResult) : fdbuf × Int × List Event :=
  let q : fdbuf × List Event :=
    if s.gptr = s.egptr then
      let pback := min (s.gptr - s.eback) (16 - sizeof_int)
      let buf := std_copy s.inbuf_ (s.egptr - pback) s.eback pback
      let done : Int := r.size
      ({ s with
          inbuf_ := os_store buf (s.eback + pback) r.bytes
          gptr := s.eback + pback
          egptr := s.eback + pback + (max 0 done).toNat },
        [Event.read s.fd_ bufsize])
    else (s, [])
  (q.1, if q.1.gptr = q.1.egptr then eof else to_int_type (q.1.inbuf_.getD q.1.gptr 0), q.2)

/-- The inherited `std::streambuf::uflow()`: `underflow`, then step over the
character it returned. -/
def fdbuf.uflow (s : fdbuf) (r : ReadResult) : fdbuf × Int × List Event :=
  let q := s.underflow r
  if q.2.1 = eof then (q.1, eof, q.2.2)
  else ({ q.1 with gptr := q.1.gptr + 1 }, to_int_type (q.1.inbuf_.getD q.1.gptr 0), q.2.2)

/-- The inherited `std::streambuf::sbumpc()`: deliver the character at the read
position and advance, or `uflow` when no read position is available. -/
def fdbuf.sbumpc (s : fdbuf) (r : ReadResult) : fdbuf × Int × List Event :=
  if s.gptr < s.egptr then
    ({ s with gptr := s.gptr + 1 }, to_int_type (s.inbuf_.getD s.gptr 0), [])
  else s.uflow r

/-- The inherited `std::streambuf::sungetc()`: step back when a put-back
position is available, otherwise `pbackfail()`, which `fdbuf` leaves at its
default (`eof`).  It takes no `::read` outcome: it makes no system call. -/
def fdbuf.sungetc (s : fdbuf) : fdbuf × Int × List Event :=
  if s.eback < s.gptr then
    ({ s with gptr := s.gptr - 1 }, to_int_type (s.inbuf_.getD (s.gptr - 1) 0), [])
  else (s, eof, [])

/-- One `sbumpc` per element of the list (the outcome of the `::read` it may
issue): the adapter, the characters delivered (the results other than `eof`), in
order, and the events. -/
def fdbuf.bumps (s : fdbuf) : List ReadResult → fdbuf × List Byte × List Event
  | [] => (s, [], [])
  | r :: rs =>
    let q := s.sbumpc r
    let q' := fdbuf.bumps q.1 rs
    (q'.1, (if q.2.1 = eof then [] else [to_char_type q.2.1]) ++ q'.2.1, q.2.2 ++ q'.2.2)

/-- Run `sungetc` `m` times: the adapter, the results in order, the events. -/
def fdbuf.ungets (s : fdbuf) : Nat → fdbuf × List Int × List Event
  | 0 => (s, [], [])
  | m + 1 =>
    let q := s.sungetc
    let q' := fdbuf.ungets q.1 m
    (q'.1, q.2.1 :: q'.2.1, q.2.2 ++ q'.2.2)

/-- The put-back property of the input side after the bytes `D` have been
delivered: `inbuf_` has its declared size, the get area lies inside it, and the
last `min D.length (16 - sizeof(int))` bytes of `D` lie right before `gptr()`. -/
def fdbuf.keeps (s : fdbuf) (D : List Byte) : Prop :=
  s.inbuf_.length = bufsize + 16 - sizeof_int ∧ s.gptr ≤ s.egptr ∧ s.egptr ≤ s.inbuf_.length ∧
    ∃ pre, s.inbuf_.take s.gptr = pre ++ D.drop (D.length - (16 - sizeof_int))

/-! ## `IORedirectServer` -/

/-- What `new fdbuf(...)` obtains from the allocator: the address of the object
and the indeterminate contents of its two arrays. -/
structure Alloc where
  addr : Nat
  out0 : List Byte
  in0 : List Byte
  deriving DecidableEq, Repr

/-- An `fdbuf*`: the address and the object there. -/
structure Obj where
  addr : Nat
  buf : fdbuf
  deriving DecidableEq, Repr

/-- The expression `new fdbuf(fd)`. -/
def Obj.new (a : Alloc) (fd : Int) : Obj :=
  { addr := a.addr, buf := (fdbuf.new a.out0 a.in0 fd).1 }

/-- The statement `delete p` for an `fdbuf* p` (nothing for a null pointer). -/
def Obj.delete (p : Option Obj) (done : Int) : List Event :=
  match p with
  | none => []
  | some o => o.buf.destroy done

/-- The stream buffers (by address) that `std::cin`, `std::cout` and
`std::cerr` are bound to. -/
structure Streams where
  cin : Nat
  cout : Nat
  cerr : Nat
  deriving DecidableEq, Repr

/-- The results of the system calls and allocations of one construction:
`pipe*` is `none` when `pipe` returns `-1`, otherwise the two descriptors. -/
structure Env where
  dupIn : Int
  dupOut : Int
  dupErr : Int
  pipeIn : Option (Int × Int)
  pipeOut : Option (Int × Int)
  pipeErr : Option (Int × Int)
  dup2In : Int
  dup2Out : Int
  dup2Err : Int
  socket : Int
  setsockopt : Int
  bind : Int
  accept : Int
  allocIn : Alloc
  allocOut : Alloc
  allocErr : Alloc
  deriving DecidableEq, Repr

/-- The data members of `IORedirectServer` (declared in `platform.h`). -/
structure IORedirectServer where
  m_in : Option Obj
  m_out : Option Obj
  m_err : Option Obj
  m_prevIn : Nat
  m_prevOut : Nat
  m_prevErr : Nat
  m_sockfd : Int
  m_realStdInFd : Int
  m_realStdOutFd : Int
  m_realStdErrFd : Int
  m_appStdIn : Int
  deriving DecidableEq, Repr

/-- The descriptor `STDIN_FILENO`. -/
def STDIN_FILENO : Int := 0

/-- The descriptor `STDOUT_FILENO`. -/
def STDOUT_FILENO : Int := 1

/-- The descriptor `STDERR_FILENO`. -/
def STDERR_FILENO : Int := 2

/-- The method `IORedirectServer::RedirectOutput`. -/
def IORedirectServer.RedirectOutput (s : IORedirectServer) (onStdOut onStdErr : Callback)
    (env : Env) : IORedirectServer × List Event :=
  let s1 := { s with
    m_realStdInFd := env.dupIn, m_realStdOutFd := env.dupOut, m_realStdErrFd := env.dupErr }
  let ev := [Event.dup STDIN_FILENO, Event.dup STDOUT_FILENO, Event.dup STDERR_FILENO]
  match env.pipeIn with
  | none => (s1, ev ++ [Event.pipe])
  | some inPipe =>
  match env.pipeOut with
  | none => (s1, ev ++ [Event.pipe, Event.pipe])
  | some outPipe =>
  match env.pipeErr with
  | none => (s1, ev ++ [Event.pipe, Event.pipe, Event.pipe])
  | some errPipe =>
    let ev := ev ++ [Event.pipe, Event.pipe, Event.pipe]
    if env.dup2In = -1 then (s1, ev ++ [Event.dup2 inPipe.1 STDIN_FILENO])
    else if env.dup2Out = -1 then
      (s1, ev ++ [Event.dup2 inPipe.1 STDIN_FILENO, Event.dup2 outPipe.2 STDOUT_FILENO])
    else if env.dup2Err = -1 then
      (s1, ev ++ [Event.dup2 inPipe.1 STDIN_FILENO, Event.dup2 outPipe.2 STDOUT_FILENO,
        Event.dup2 errPipe.2 STDERR_FILENO])
    else
      ({ s1 with m_appStdIn := inPipe.2 },
        ev ++ [Event.dup2 inPipe.1 STDIN_FILENO, Event.dup2 outPipe.2 STDOUT_FILENO,
          Event.dup2 errPipe.2 STDERR_FILENO,
          Event.close inPipe.1, Event.close outPipe.2, Event.close errPipe.2,
          Event.thread outPipe.1 onStdOut, Event.thread errPipe.1 onStdErr])

/-- The method `IORedirectServer::WaitForConnection`. -/
def IORedirectServer.WaitForConnection (s : IORedirectServer) (port : Nat) (env : Env) :
    IORedirectServer × Int × List Event :=
  if port = 0 then (s, -1, [])
  else
    let s1 := { s with m_sockfd := env.socket }
    if s1.m_sockfd < 0 then (s1, -1, [Event.socket])
    else if env.setsockopt < 0 then
      ({ s1 with m_sockfd := -1 }, -1,
        [Event.socket, Event.setsockopt s1.m_sockfd, Event.close s1.m_sockfd])
    else if env.bind < 0 then
      ({ s1 with m_sockfd := -1 }, -1,
        [Event.socket, Event.setsockopt s1.m_sockfd, Event.bind s1.m_sockfd port,
          Event.close s1.m_sockfd])
    else
      let ev := [Event.socket, Event.setsockopt s1.m_sockfd, Event.bind s1.m_sockfd port,
        Event.listen s1.m_sockfd,
        Event.close s1.m_realStdInFd, Event.close s1.m_realStdOutFd,
        Event.close s1.m_realStdErrFd, Event.accept s1.m_sockfd]
      let s2 := { s1 with m_realStdInFd := -1, m_realStdOutFd := -1, m_realStdErrFd := -1 }
      let newsockfd := env.accept
      if newsockfd < 0 then
        ({ s2 with m_sockfd := -1 }, -1, ev ++ [Event.close s2.m_sockfd])
      else (s2, newsockfd, ev)

/-- The member initialiser list of the constructor.  Members it does not
mention start as null. -/
def IORedirectServer.init : IORedirectServer :=
  { m_in := none, m_out := none, m_err := none,
    m_prevIn := 0, m_prevOut := 0, m_prevErr := 0,
    m_sockfd := -1,
    m_realStdInFd := STDIN_FILENO, m_realStdOutFd := STDOUT_FILENO,
    m_realStdErrFd := STDERR_FILENO,
    m_appStdIn := -1 }

/-- The constructor `IORedirectServer::IORedirectServer`; `io` is the binding
of the three standard streams when it runs. -/
def IORedirectServer.new (port : Nat) (onStdOut onStdErr : Callback) (env : Env)
    (io : Streams) : IORedirectServer × Streams × List Event :=
  let r1 := IORedirectServer.init.RedirectOutput onStdOut onStdErr env
  let r2 := r1.1.WaitForConnection port env
  let fd := r2.2.1
  let s3 : IORedirectServer :=
    if fd ≠ -1 then
      { r2.1 with m_in := some (Obj.new env.allocIn fd), m_out := some (Obj.new env.allocOut fd) }
    else
      { r2.1 with
        m_in := some (Obj.new env.allocIn r2.1.m_realStdInFd)
        m_out := some (Obj.new env.allocOut r2.1.m_realStdOutFd) }
  let s4 := { s3 with m_err := some (Obj.new env.allocErr s3.m_realStdErrFd) }
  let s5 := { s4 with m_prevIn := io.cin, m_prevOut := io.cout, m_prevErr := io.cerr }
  (s5,
    { cin := env.allocIn.addr, cout := env.allocOut.addr, cerr := env.allocErr.addr },
    r1.2 ++ r2.2.2)

/-- The destructor `IORedirectServer::~IORedirectServer`; `wIn`, `wOut`, `wErr`
are the results of the `::write` each adapter's destructor may issue. -/
def IORedirectServer.destroy (s : IORedirectServer) (io : Streams) (wIn wOut wErr : Int) :
    Streams × List Event :=
  let io1 := { io with cin := s.m_prevIn }
  let io2 := { io1 with cout := s.m_prevOut }
  let io3 := { io2 with cout := s.m_prevErr }
  (io3,
    Obj.delete s.m_in wIn ++ Obj.delete s.m_out wOut ++ Obj.delete s.m_err wErr
      ++ [Event.close s.m_sockfd])

/-- The `socket`, `setsockopt`, `bind`, `listen` and `accept` calls in a log. -/
def socketCalls : List Event → List Event
  | [] => []
  | .socket :: es => .socket :: socketCalls es
  | .setsockopt fd :: es => .setsockopt fd :: socketCalls es
  | .bind fd port :: es => .bind fd port :: socketCalls es
  | .listen fd :: es => .listen fd :: socketCalls es
  | .accept fd :: es => .accept fd :: socketCalls es
  | _ :: es => socketCalls es

/-- The construction reaches `listen`: the port is not zero and `socket`,
`setsockopt` and `bind` all succeed. -/
def Env.listens (env : Env) (port : Nat) : Prop :=
  port ≠ 0 ∧ 0 ≤ env.socket ∧ 0 ≤ env.setsockopt ∧ 0 ≤ env.bind

instance (env : Env) (port : Nat) : Decidable (env.listens port) := by
  unfold Env.listens; infer_instance

/-- The descriptor an `fdbuf*` is bound to, if the pointer is not null. -/
def Obj.fd (p : Option Obj) : Option Int := p.map (fun o => o.buf.fd_)

/-- A construction in which every call succeeds up to `accept`, which returns
`accept`: the duplicates are 10, 11, 12, the pipes (20, 21), (22, 23), (24, 25),
the listening socket 7. -/
def sampleEnv (accept : Int) : Env :=
  { dupIn := 10, dupOut := 11, dupErr := 12,
    pipeIn := some (20, 21), pipeOut := some (22, 23), pipeErr := some (24, 25),
    dup2In := 0, dup2Out := 1, dup2Err := 2,
    socket := 7, setsockopt := 0, bind := 0, accept := accept,
    allocIn := { addr := 100, out0 := List.replicate bufsize 0,
                 in0 := List.replicate (bufsize + 16 - sizeof_int) 0 },
    allocOut := { addr := 101, out0 := List.replicate bufsize 0,
                  in0 := List.replicate (bufsize + 16 - sizeof_int) 0 },
    allocErr := { addr := 102, out0 := List.replicate bufsize 0,
                  in0 := List.replicate (bufsize + 16 - sizeof_int) 0 } }

/-! ## The forwarder -/

/-- The state of the loop in the closure `GetFdReadFunction` returns: the local
`buffer`, the thread's `errno`, the arguments of the calls to `cb` so far, the
number of `read` calls so far, and whether `break` has been executed. -/
structure Forwarder where
  buffer : List Byte
  errno : Int
  chunks : List (List Byte)
  reads : Nat
  stopped : Bool
  deriving DecidableEq, Repr

/-- The closure entered: `buffer` holds `buf0`, `errno` is `errno0`. -/
def Forwarder.start (buf0 : List Byte) (errno0 : Int) : Forwarder :=
  { buffer := buf0, errno := errno0, chunks := [], reads := 0, stopped := false }

/-- The `while (true)` loop of the closure `GetFdReadFunction` returns, run on
the outcomes of its successive `read` calls.  When the outcomes run out with
`stopped = false` the loop is at its next `read`. -/
def GetFdReadFunction (st : Forwarder) : List ReadResult → Forwarder
  | [] => st
  | r :: rs =>
    let read_size : Int := r.size
    let st1 := { st with
      buffer := os_store st.buffer 0 r.bytes, errno := r.errno st.errno, reads := st.reads + 1 }
    if read_size ≤ 0 then
      if st1.errno = EINTR then GetFdReadFunction st1 rs
      else { st1 with stopped := true }
    else
      GetFdReadFunction
        { st1 with chunks := st1.chunks ++ [st1.buffer.take read_size.toNat] } rs

/-- The byte sequences of the reads that returned a positive length, in order. -/
def positiveReads : List ReadResult → List (List Byte)
  | [] => []
  | .ok bytes :: rs => if bytes = [] then positiveReads rs else bytes :: positiveReads rs
  | .fail _ :: rs => positiveReads rs

/-- The value of `errno` after the given reads, from its value before them. -/
def errnoAfter (e : Int) : List ReadResult → Int
  | [] => e
  | r :: rs => errnoAfter (r.errno e) rs

/-- A property of the outcomes alone: every read that returns a non-positive
length leaves `errno` equal to `EINTR` (`e` is `errno` before the first read). -/
def retried (e : Int) : List ReadResult → Prop
  | [] => True
  | r :: rs => (r.size ≤ 0 → r.errno e = EINTR) ∧ retried (r.errno e) rs

/-- Deciding `retried`, read by read. -/
def retriedDec : (e : Int) → (rs : List ReadResult) → Decidable (retried e rs)
  | _, [] => isTrue trivial
  | e, r :: rs =>
    match (inferInstance : Decidable (r.size ≤ 0 → r.errno e = EINTR)),
      retriedDec (r.errno e) rs with
    | isTrue h1, isTrue h2 => isTrue ⟨h1, h2⟩
    | isFalse h1, _ => isFalse (fun h => h1 h.1)
    | _, isFalse h2 => isFalse (fun h => h2 h.2)

instance (e : Int) (rs : List ReadResult) : Decidable (retried e rs) := retriedDec e rs

/-! ## Arrays -/

theorem take_set_succ (l : List Byte) (n : Nat) (b : Byte) (h : n < l.length) :
    (l.set n b).take (n + 1) = l.take n ++ [b] := by
  induction l generalizing n with
  | nil => simp at h
  | cons a t ih =>
    cases n with
    | zero => simp
    | succ m =>
      simp only [List.length_cons, Nat.add_lt_add_iff_right] at h
      simp [ih m h]

theorem os_store_eq (bs buf : List Byte) (off : Nat) (h : off + bs.length ≤ buf.length) :
    os_store buf off bs = buf.take off ++ bs ++ buf.drop (off + bs.length) := by
  induction bs generalizing buf off with
  | nil => simp [os_store]
  | cons b t ih =>
    simp only [List.length_cons] at h
    have hlt : off < buf.length := by omega
    rw [os_store, ih _ _ (by simp; omega)]
    rw [take_set_succ _ _ _ hlt]
    rw [List.drop_set_of_lt _ _ (by omega : off < off + 1 + t.length)]
    have e : off + 1 + t.length = off + (t.length + 1) := by omega
    simp [e]

theorem os_store_length (bs buf : List Byte) (off : Nat) :
    (os_store buf off bs).length = buf.length := by
  induction bs generalizing buf off with
  | nil => simp [os_store]
  | cons b t ih => rw [os_store, ih]; simp

theorem std_copy_eq (n : Nat) (buf : List Byte) (first dest : Nat) (hd : dest ≤ first)
    (h : first + n ≤ buf.length) :
    std_copy buf first dest n
      = buf.take dest ++ (buf.drop first).take n ++ buf.drop (dest + n) := by
  induction n generalizing buf first dest with
  | zero => simp [std_copy]
  | succ k ih =>
    have hf : first < buf.length := by omega
    have hdl : dest < buf.length := by omega
    rw [std_copy, ih _ _ _ (by omega) (by simp; omega)]
    rw [take_set_succ _ _ _ hdl]
    rw [List.drop_set_of_lt _ _ (by omega : dest < first + 1)]
    rw [List.drop_set_of_lt _ _ (by omega : dest < dest + 1 + k)]
    have e1 : buf.getD first 0 = buf[first] := by simp [List.getD_eq_getElem, hf]
    have e2 : List.take (k + 1) (List.drop first buf)
        = buf[first] :: List.take k (List.drop (first + 1) buf) := by
      rw [List.drop_eq_getElem_cons hf, List.take_succ_cons]
    rw [e1, e2]
    have e : dest + 1 + k = dest + (k + 1) := by omega
    simp [e]

theorem std_copy_length (n : Nat) (buf : List Byte) (first dest : Nat) :
    (std_copy buf first dest n).length = buf.length := by
  induction n generalizing buf first dest with
  | zero => simp [std_copy]
  | succ k ih => rw [std_copy, ih]; simp

theorem to_char_type_to_int_type (b : Byte) : to_char_type (to_int_type b) = b := by
  apply Fin.ext
  have hb := b.isLt
  simp only [to_char_type, to_int_type, Fin.ofNat]
  omega

theorem to_int_type_ne_eof (b : Byte) : to_int_type b ≠ eof := by
  simp only [to_int_type, eof]
  omega

/-! ## Logs -/

theorem transferred_append (a b : List Event) :
    transferred (a ++ b) = transferred a ++ transferred b := by
  induction a with
  | nil => rfl
  | cons e t ih => cases e <;> simp [transferred, ih]

theorem pokes_append (a b : List Event) : pokes (a ++ b) = pokes a ++ pokes b := by
  induction a with
  | nil => rfl
  | cons e t ih => cases e <;> simp [pokes, ih]

/-! ## The output side of `fdbuf` -/

/-- A flush whose `::write`, if any, made progress: the bytes transferred
followed by the bytes kept are the bytes that were pending, and the put area
shrinks. -/
theorem fdsync_progress (s : fdbuf) (done : Int) (hlen : s.pptr ≤ s.outbuf_.length)
    (hp : ∀ e ∈ (s.fdsync done).2.2, e.progress) :
    transferred (s.fdsync done).2.2 ++ (s.fdsync done).1.pending = s.pending ∧
    (s.fdsync done).1.outbuf_.length = s.outbuf_.length ∧
    (s.fdsync done).1.epptr = s.epptr ∧
    (s.fdsync done).1.pptr ≤ s.pptr ∧
    (s.pptr ≠ 0 → (s.fdsync done).1.pptr < s.pptr) := by
  by_cases h0 : s.pptr = 0
  · simp [fdbuf.fdsync, fdbuf.pbase, h0, transferred]
  · have h0' : ¬ (0 = s.pptr) := fun h => h0 h.symm
    have hev : (s.fdsync done).2.2 = [Event.write s.fd_ (s.outbuf_.take s.pptr) done] := by
      simp only [fdbuf.fdsync, fdbuf.pbase, ne_eq, h0', not_false_eq_true, if_true,
        Nat.sub_zero]
      split <;> rfl
    have hpr := hp _ (by rw [hev]; exact List.mem_singleton_self _)
    simp only [Event.progress, List.length_take, Nat.min_eq_left hlen] at hpr
    obtain ⟨h1, h2⟩ := hpr
    have hpos : 0 < done := by omega
    obtain ⟨d, rfl⟩ : ∃ d : Nat, done = (d : Int) := ⟨done.toNat, by omega⟩
    have hd1 : 1 ≤ d := by omega
    have hd2 : d ≤ s.pptr := by omega
    have hst : (s.fdsync (d : Int)).1 =
        { s with outbuf_ := std_copy s.outbuf_ d 0 (s.pptr - d), pptr := s.pptr - d } := by
      simp only [fdbuf.fdsync, fdbuf.pbase, ne_eq, h0', not_false_eq_true, if_true,
        Nat.sub_zero, hpos, Int.toNat_ofNat, Nat.zero_add]
      congr 1
      omega
    rw [hev, hst]
    simp only [fdbuf.pending, transferred, hpos, if_true, Int.toNat_ofNat, List.append_nil,
      std_copy_length]
    refine ⟨?_, trivial, trivial, by omega, fun _ => by omega⟩
    have hc : std_copy s.outbuf_ d 0 (s.pptr - d)
        = List.take (s.pptr - d) (List.drop d s.outbuf_) ++ List.drop (s.pptr - d) s.outbuf_ := by
      rw [std_copy_eq _ _ _ _ (Nat.zero_le _) (by omega)]
      simp
    have hl : (List.take (s.pptr - d) (List.drop d s.outbuf_)).length = s.pptr - d := by
      rw [List.length_take, List.length_drop]; omega
    have hk : List.take (s.pptr - d) (std_copy s.outbuf_ d 0 (s.pptr - d))
        = List.take (s.pptr - d) (List.drop d s.outbuf_) := by
      rw [hc, List.take_append_of_le_length (by omega), List.take_of_length_le (by omega)]
    have ht : List.take d (List.take s.pptr s.outbuf_) = List.take d s.outbuf_ := by
      rw [List.take_take, Nat.min_eq_left hd2]
    rw [hk, ht]
    have hs : s.pptr = d + (s.pptr - d) := by omega
    conv_rhs => rw [hs, List.take_add]

/-- The adapter right after construction. -/
theorem fdbuf_new_fst (out0 in0 : List Byte) (fd : Int) :
    (fdbuf.new out0 in0 fd).1 =
      { outbuf_ := out0, inbuf_ := in0, fd_ := fd, pptr := 0, epptr := bufsize - 1,
        gptr := 0, egptr := 0 } := by
  simp [fdbuf.new, fdbuf.open, fdbuf.close]

/-- One `sputc` whose `::write`, if any, made progress. -/
theorem sputc_progress (s : fdbuf) (b : Byte) (done : Int)
    (hL : s.outbuf_.length = bufsize) (hE : s.epptr = bufsize - 1) (hP : s.pptr ≤ s.epptr)
    (hp : ∀ e ∈ (s.sputc b done).2.2, e.progress) :
    transferred (s.sputc b done).2.2 ++ (s.sputc b done).1.pending = s.pending ++ [b] ∧
    (s.sputc b done).1.outbuf_.length = bufsize ∧
    (s.sputc b done).1.epptr = bufsize - 1 ∧
    (s.sputc b done).1.pptr ≤ (s.sputc b done).1.epptr := by
  have hb : bufsize = 1024 := rfl
  by_cases hlt : s.pptr < s.epptr
  · have hst : s.sputc b done
        = ({ s with outbuf_ := s.outbuf_.set s.pptr b, pptr := s.pptr + 1 }, to_int_type b, []) := by
      simp [fdbuf.sputc, hlt]
    rw [hst]
    simp only [transferred, fdbuf.pending, List.nil_append, List.length_set]
    refine ⟨take_set_succ _ _ _ (by omega), hL, hE, by omega⟩
  · have hst : s.sputc b done = s.overflow (to_int_type b) done := by
      simp [fdbuf.sputc, hlt]
    rw [hst] at hp ⊢
    let s1 : fdbuf :=
      { s with outbuf_ := s.outbuf_.set s.pptr (to_char_type (to_int_type b)), pptr := s.pptr + 1 }
    have ho1 : (s.overflow (to_int_type b) done).1 = (s1.fdsync done).1 := by
      simp [fdbuf.overflow, fdbuf.sync, to_int_type_ne_eof, s1]
    have ho2 : (s.overflow (to_int_type b) done).2.2 = Event.poke s.pptr :: (s1.fdsync done).2.2 := by
      simp [fdbuf.overflow, fdbuf.sync, to_int_type_ne_eof, s1]
    have hlen1 : s1.pptr ≤ s1.outbuf_.length := by
      simp only [s1, List.length_set]; omega
    have hp1 : ∀ e ∈ (s1.fdsync done).2.2, e.progress := by
      intro e he
      exact hp e (by rw [ho2]; exact List.mem_cons_of_mem _ he)
    obtain ⟨h1, h2, h3, _, h5⟩ := fdsync_progress s1 done hlen1 hp1
    have hpend : s1.pending = s.pending ++ [b] := by
      simp only [s1, fdbuf.pending, to_char_type_to_int_type]
      exact take_set_succ _ _ _ (by omega)
    rw [ho1, ho2]
    refine ⟨?_, ?_, ?_, ?_⟩
    · simpa [transferred, hpend] using h1
    · rw [h2]; simpa [s1] using hL
    · rw [h3]; exact hE
    · have := h5 (by simp [s1])
      rw [h3]
      simp only [s1] at this ⊢
      omega

/-- Invariant of the output side under progress, from any adapter whose put
area lies inside `outbuf_`. -/
theorem run_progress (ops : List Op) (s : fdbuf)
    (hL : s.outbuf_.length = bufsize) (hE : s.epptr = bufsize - 1) (hP : s.pptr ≤ s.epptr)
    (hp : ∀ e ∈ (s.run ops).2, e.progress) :
    transferred (s.run ops).2 ++ (s.run ops).1.pending = s.pending ++ written ops := by
  induction ops generalizing s with
  | nil => simp [fdbuf.run, transferred, written]
  | cons op ops ih =>
    have hrun : s.run (op :: ops)
        = (((s.step op).1.run ops).1, (s.step op).2.2 ++ ((s.step op).1.run ops).2) := rfl
    rw [hrun] at hp ⊢
    simp only [List.mem_append] at hp
    have hpa : ∀ e ∈ (s.step op).2.2, e.progress := fun e he => hp e (Or.inl he)
    have hpb : ∀ e ∈ ((s.step op).1.run ops).2, e.progress := fun e he => hp e (Or.inr he)
    cases op with
    | writeByte b done =>
      obtain ⟨h1, h2, h3, h4⟩ := sputc_progress s b done hL hE hP hpa
      have := ih (s.sputc b done).1 h2 h3 h4 hpb
      simp only [fdbuf.step, transferred_append, List.append_assoc, written] at this ⊢
      rw [this, ← List.append_assoc, h1]
      simp
    | flush done =>
      have hb : bufsize = 1024 := rfl
      obtain ⟨h1, h2, h3, h4, _⟩ := fdsync_progress s done (by omega) hpa
      have := ih (s.fdsync done).1 (by rw [h2, hL]) (by rw [h3, hE]) (by rw [h3]; omega) hpb
      simp only [fdbuf.step, fdbuf.sync, transferred_append, List.append_assoc, written] at this ⊢
      rw [this, ← List.append_assoc, h1]

theorem run_append (a b : List Op) (s : fdbuf) :
    s.run (a ++ b) = (((s.run a).1.run b).1, (s.run a).2 ++ ((s.run a).1.run b).2) := by
  induction a generalizing s with
  | nil => simp [fdbuf.run]
  | cons op a ih =>
    have h1 : s.run (op :: a ++ b)
        = (((s.step op).1.run (a ++ b)).1, (s.step op).2.2 ++ ((s.step op).1.run (a ++ b)).2) := rfl
    have h2 : s.run (op :: a)
        = (((s.step op).1.run a).1, (s.step op).2.2 ++ ((s.step op).1.run a).2) := rfl
    rw [h1, h2, ih]
    simp

/-- While the put area has room, `k` calls of `sputc` only advance `pptr()`:
no `overflow`, no system call. -/
theorem run_direct (k : Nat) (s : fdbuf) (b : Byte) (done : Int) (h : s.pptr + k ≤ s.epptr) :
    (s.run (List.replicate k (Op.writeByte b done))).1.pptr = s.pptr + k ∧
    (s.run (List.replicate k (Op.writeByte b done))).1.epptr = s.epptr ∧
    (s.run (List.replicate k (Op.writeByte b done))).1.fd_ = s.fd_ ∧
    (s.run (List.replicate k (Op.writeByte b done))).2 = [] := by
  induction k generalizing s with
  | zero => simp [fdbuf.run]
  | succ k ih =>
    have hlt : s.pptr < s.epptr := by omega
    have hst : s.step (Op.writeByte b done)
        = ({ s with outbuf_ := s.outbuf_.set s.pptr b, pptr := s.pptr + 1 }, to_int_type b, []) := by
      simp [fdbuf.step, fdbuf.sputc, hlt]
    have hrun : s.run (List.replicate (k + 1) (Op.writeByte b done))
        = (((s.step (Op.writeByte b done)).1.run (List.replicate k (Op.writeByte b done))).1,
            (s.step (Op.writeByte b done)).2.2
              ++ ((s.step (Op.writeByte b done)).1.run (List.replicate k (Op.writeByte b done))).2) :=
      rfl
    rw [hrun, hst]
    have := ih { s with outbuf_ := s.outbuf_.set s.pptr b, pptr := s.pptr + 1 }
      (by simp only; omega)
    simp only [List.nil_append] at this ⊢
    refine ⟨by rw [this.1]; omega, this.2.1, this.2.2.1, this.2.2.2⟩

/-- The value `fdsync` returns and where it leaves `pptr()`, for every adapter
and every `::write` result: the result tells whether the put area has room
left, not whether the `::write` made progress. -/
theorem fdsync_result (s : fdbuf) (done : Int) :
    (s.fdsync done).1.pptr
      = (if s.pptr ≠ 0 ∧ 0 < done then ((s.pptr : Int) - done).toNat else s.pptr) ∧
    (s.fdsync done).1.epptr = s.epptr ∧
    (s.fdsync done).2.1 = (if (s.fdsync done).1.pptr ≠ s.epptr then 0 else -1) := by
  by_cases h0 : s.pptr = 0
  · simp [fdbuf.fdsync, fdbuf.pbase, h0]
  · have h0' : ¬ (0 = s.pptr) := fun h => h0 h.symm
    by_cases hd : 0 < done
    · simp [fdbuf.fdsync, fdbuf.pbase, h0, h0', hd]
    · simp [fdbuf.fdsync, fdbuf.pbase, h0, h0', hd]

/-- What `overflow` does to the pointers and what it records, for a character
other than `eof`. -/
theorem overflow_result (s : fdbuf) (c : Int) (done : Int) (hc : c ≠ eof) :
    (s.overflow c done).1.pptr
      = (if 0 < done then ((s.pptr : Int) + 1 - done).toNat else s.pptr + 1) ∧
    (s.overflow c done).1.epptr = s.epptr ∧
    (s.overflow c done).2.1
      = (if (s.overflow c done).1.pptr ≠ s.epptr then not_eof c else eof) ∧
    pokes (s.overflow c done).2.2 = [s.pptr] := by
  have hf := fdsync_result
    { s with outbuf_ := s.outbuf_.set s.pptr (to_char_type c), pptr := s.pptr + 1 } done
  have hev : ∀ t : fdbuf, pokes (t.fdsync done).2.2 = [] := by
    intro t
    simp only [fdbuf.fdsync]
    split
    · split <;> rfl
    · rfl
  obtain ⟨h1, h2, h3⟩ := hf
  simp only [fdbuf.overflow, fdbuf.sync, hc, ne_eq, not_false_eq_true, if_true]
  refine ⟨?_, h2, ?_, ?_⟩
  · rw [h1]; simp
  · rw [h3]
    simp only [h2]
    split <;> simp
  · simp [pokes_append, pokes, hev]

/-- With the put area full and a `::write` that transfers nothing, the first
`sputc` reports success and the second stores one cell further. -/
theorem sputc_twice_full (s : fdbuf) (b1 b2 : Byte) (d1 d2 : Int) (h : s.pptr = s.epptr)
    (hd1 : d1 ≤ 0) (hd2 : d2 ≤ 0) :
    pokes (s.run [Op.writeByte b1 d1, Op.writeByte b2 d2]).2 = [s.epptr, s.epptr + 1] ∧
    (s.run [Op.writeByte b1 d1, Op.writeByte b2 d2]).1.pptr = s.epptr + 2 ∧
    (s.step (Op.writeByte b1 d1)).2.1 = to_int_type b1 := by
  have hn1 : ¬ (0 < d1) := by omega
  have hn2 : ¬ (0 < d2) := by omega
  have e1 : s.step (Op.writeByte b1 d1) = s.overflow (to_int_type b1) d1 := by
    simp [fdbuf.step, fdbuf.sputc, h]
  obtain ⟨p1, p2, p3, p4⟩ := overflow_result s (to_int_type b1) d1 (to_int_type_ne_eof b1)
  simp only [hn1, if_false] at p1
  have e2 : (s.overflow (to_int_type b1) d1).1.step (Op.writeByte b2 d2)
      = (s.overflow (to_int_type b1) d1).1.overflow (to_int_type b2) d2 := by
    simp [fdbuf.step, fdbuf.sputc, p1, p2, h]
  obtain ⟨q1, _, _, q4⟩ := overflow_result (s.overflow (to_int_type b1) d1).1
    (to_int_type b2) d2 (to_int_type_ne_eof b2)
  simp only [hn2, if_false] at q1
  have hrun : s.run [Op.writeByte b1 d1, Op.writeByte b2 d2]
      = (((s.step (Op.writeByte b1 d1)).1.step (Op.writeByte b2 d2)).1,
          (s.step (Op.writeByte b1 d1)).2.2
            ++ (((s.step (Op.writeByte b1 d1)).1.step (Op.writeByte b2 d2)).2.2 ++ [])) := rfl
  rw [hrun, e1, e2]
  refine ⟨?_, ?_, ?_⟩
  · rw [pokes_append, pokes_append, p4, q4, p1, h]; simp [pokes]
  · rw [q1, p1, h]
  · rw [p3, p1, h]
    have hne : to_int_type b1 ≠ eof := to_int_type_ne_eof b1
    simp [not_eof, hne]

/-! ## The claims about the output side -/

/-- C2: from a freshly constructed adapter, for every sequence of `writeByte`
and `flush` operations in which each `::write` of `n` pending bytes returns some
`d` with `1 ≤ d ≤ n`, the bytes transferred to the descriptor followed by the
bytes still in the put area are exactly the bytes written, in order. -/
theorem output_lossless (out0 in0 : List Byte) (fd : Int) (ops : List Op)
    (hlen : out0.length = bufsize)
    (hp : ∀ e ∈ ((fdbuf.new out0 in0 fd).1.run ops).2, e.progress) :
    transferred ((fdbuf.new out0 in0 fd).1.run ops).2
      ++ ((fdbuf.new out0 in0 fd).1.run ops).1.pending = written ops := by
  rw [fdbuf_new_fst] at hp ⊢
  have := run_progress ops _ (by simpa using hlen) rfl (by simp) hp
  simpa [fdbuf.pending] using this

/-- Witness for C2: three bytes written, flushed in fragments of one and two. -/
theorem output_lossless_witness :
    transferred ((fdbuf.new (List.replicate bufsize 0) [] 3).1.run
        [Op.writeByte 104 0, Op.writeByte 105 0, Op.flush 1, Op.writeByte 33 0, Op.flush 2]).2
      ++ ((fdbuf.new (List.replicate bufsize 0) [] 3).1.run
        [Op.writeByte 104 0, Op.writeByte 105 0, Op.flush 1, Op.writeByte 33 0, Op.flush 2]).1.pending
      = [104, 105, 33] :=
  output_lossless (List.replicate bufsize 0) [] 3
    [Op.writeByte 104 0, Op.writeByte 105 0, Op.flush 1, Op.writeByte 33 0, Op.flush 2]
    (List.length_replicate _ _) (by decide)

/-- C3: `fdsync` does not follow "progress = success".  With one byte pending
and a `::write` that returns zero it reports success (`0`); and inside
`overflow`, with 1024 bytes pending and a `::write` that transfers one byte, it
reports failure, so `overflow` returns `eof`. -/
theorem fdsync_result_is_not_progress :
    (((fdbuf.new (List.replicate bufsize 0) (List.replicate (bufsize + 16 - sizeof_int) 0) 3).1.run
        [Op.writeByte 65 0]).1.fdsync 0).2.1 = 0 ∧
    (((fdbuf.new (List.replicate bufsize 0) (List.replicate (bufsize + 16 - sizeof_int) 0) 3).1.run
        (List.replicate 1023 (Op.writeByte 65 0))).1.overflow 66 1).2.1 = eof := by
  constructor
  · decide
  · have hd := run_direct 1023
      (fdbuf.new (List.replicate bufsize 0) (List.replicate (bufsize + 16 - sizeof_int) 0) 3).1
      65 0 (by rw [fdbuf_new_fst]; decide)
    obtain ⟨h1, h2, _, _⟩ := hd
    rw [fdbuf_new_fst] at h1 h2
    obtain ⟨p1, _, p3, _⟩ := overflow_result
      ((fdbuf.new (List.replicate bufsize 0) (List.replicate (bufsize + 16 - sizeof_int) 0) 3).1.run
        (List.replicate 1023 (Op.writeByte 65 0))).1 66 1 (by decide)
    rw [fdbuf_new_fst] at p1 p3
    rw [fdbuf_new_fst, p3, p1, h1, h2]
    decide

/-- C10: `overflow` stores outside `outbuf_`.  From a freshly constructed
adapter, 1025 calls of `writeByte` during which every `::write` returns zero:
the second `overflow` stores at offset 1024 of the 1024-cell array, and 1025
bytes are then pending. -/
theorem overflow_stores_past_outbuf :
    pokes ((fdbuf.new (List.replicate bufsize 0) (List.replicate (bufsize + 16 - sizeof_int) 0) 3).1.run
        (List.replicate 1023 (Op.writeByte 65 0)
          ++ [Op.writeByte 65 0, Op.writeByte 65 0])).2 = [1023, 1024] ∧
    ((fdbuf.new (List.replicate bufsize 0) (List.replicate (bufsize + 16 - sizeof_int) 0) 3).1.run
        (List.replicate 1023 (Op.writeByte 65 0)
          ++ [Op.writeByte 65 0, Op.writeByte 65 0])).1.pptr = 1025 := by
  have hd := run_direct 1023
    (fdbuf.new (List.replicate bufsize 0) (List.replicate (bufsize + 16 - sizeof_int) 0) 3).1
    65 0 (by rw [fdbuf_new_fst]; decide)
  obtain ⟨h1, h2, _, h4⟩ := hd
  rw [fdbuf_new_fst] at h1 h2 h4
  have ht := sputc_twice_full
    ((fdbuf.new (List.replicate bufsize 0) (List.replicate (bufsize + 16 - sizeof_int) 0) 3).1.run
      (List.replicate 1023 (Op.writeByte 65 0))).1 65 65 0 0
    (by rw [fdbuf_new_fst, h1, h2]; decide) (by decide) (by decide)
  rw [fdbuf_new_fst] at ht
  rw [run_append, fdbuf_new_fst]
  simp only [h4, List.nil_append]
  rw [ht.1, ht.2.1, h2]
  decide

/-- C4: `close()` leaves `fd_` as it was, for every adapter; so on an adapter
bound to descriptor 5 with nothing pending, `close(); close();` and the
destructor call `::close(5)` three times. -/
theorem close_keeps_descriptor :
    (∀ (s : fdbuf) (done : Int), (s.close done).1.fd_ = s.fd_) ∧
    closes
      (((fdbuf.new (List.replicate bufsize 0) (List.replicate (bufsize + 16 - sizeof_int) 0) 5).1.close 0).2
        ++ ((((fdbuf.new (List.replicate bufsize 0)
              (List.replicate (bufsize + 16 - sizeof_int) 0) 5).1.close 0).1.close 0).2
        ++ (((fdbuf.new (List.replicate bufsize 0)
              (List.replicate (bufsize + 16 - sizeof_int) 0) 5).1.close 0).1.close 0).1.destroy 0))
      = [5, 5, 5] := by
  constructor
  · intro s done
    simp only [fdbuf.close, fdbuf.sync, fdbuf.fdsync]
    split
    · split
      · split <;> rfl
      · rfl
    · rfl
  · decide

/-! ## The forwarder -/

theorem mem_positiveReads (l : List ReadResult) (c : List Byte) (h : c ∈ positiveReads l) :
    c ≠ [] ∧ ReadResult.ok c ∈ l := by
  induction l with
  | nil => simp [positiveReads] at h
  | cons r t ih =>
    cases r with
    | ok bytes =>
      by_cases hb : bytes = []
      · simp only [positiveReads, hb, if_true] at h
        exact ⟨(ih h).1, List.mem_cons_of_mem _ (ih h).2⟩
      · simp only [positiveReads, hb, if_false, List.mem_cons] at h
        rcases h with h | h
        · subst h
          exact ⟨hb, List.mem_cons_self _ _⟩
        · exact ⟨(ih h).1, List.mem_cons_of_mem _ (ih h).2⟩
    | fail e =>
      simp only [positiveReads] at h
      exact ⟨(ih h).1, List.mem_cons_of_mem _ (ih h).2⟩

/-- The loop from any state: it consumes a beginning of the outcomes and calls
`cb` with the bytes of each positive read among them, in order. -/
theorem forwarder_chunks (rs : List ReadResult) (st : Forwarder)
    (hb : st.buffer.length = PIPE_BUF) (hr : ∀ r ∈ rs, r.bytes.length ≤ PIPE_BUF) :
    st.reads ≤ (GetFdReadFunction st rs).reads ∧
    (GetFdReadFunction st rs).reads ≤ st.reads + rs.length ∧
    (GetFdReadFunction st rs).chunks
      = st.chunks ++ positiveReads (rs.take ((GetFdReadFunction st rs).reads - st.reads)) := by
  induction rs generalizing st with
  | nil => simp [GetFdReadFunction, positiveReads]
  | cons r rs ih =>
    have hr' : ∀ r ∈ rs, r.bytes.length ≤ PIPE_BUF := fun x hx => hr x (List.mem_cons_of_mem _ hx)
    have hrl : r.bytes.length ≤ PIPE_BUF := hr r (List.mem_cons_self _ _)
    have hlen : (os_store st.buffer 0 r.bytes).length = PIPE_BUF := by
      rw [os_store_length, hb]
    cases r with
    | ok bytes =>
      by_cases hemp : bytes = []
      · subst hemp
        by_cases he : st.errno = EINTR
        · have hstep : GetFdReadFunction st (ReadResult.ok [] :: rs)
              = GetFdReadFunction { st with reads := st.reads + 1 } rs := by
            simp [GetFdReadFunction, ReadResult.size, ReadResult.bytes, ReadResult.errno,
              os_store, he]
          obtain ⟨h1, h2, h3⟩ := ih { st with reads := st.reads + 1 } hb hr'
          rw [hstep]
          simp only at h1 h2 h3
          refine ⟨by omega, by simp only [List.length_cons]; omega, ?_⟩
          have hk : (GetFdReadFunction { st with reads := st.reads + 1 } rs).reads - st.reads
              = ((GetFdReadFunction { st with reads := st.reads + 1 } rs).reads
                  - (st.reads + 1)) + 1 := by omega
          rw [h3, hk, List.take_succ_cons]
          simp [positiveReads]
        · have hstep : GetFdReadFunction st (ReadResult.ok [] :: rs)
              = { st with reads := st.reads + 1, stopped := true } := by
            simp [GetFdReadFunction, ReadResult.size, ReadResult.bytes, ReadResult.errno,
              os_store, he]
          rw [hstep]
          simp [positiveReads]
      · have hpos : ¬ ((bytes.length : Int) ≤ 0) := by
          have : 0 < bytes.length := List.length_pos.mpr hemp
          omega
        have hbuf : (os_store st.buffer 0 bytes).take bytes.length = bytes := by
          simp only [ReadResult.bytes] at hrl
          rw [os_store_eq _ _ _ (by omega)]
          simp
        have hstep : GetFdReadFunction st (ReadResult.ok bytes :: rs)
            = GetFdReadFunction
                { st with
                  buffer := os_store st.buffer 0 bytes, reads := st.reads + 1,
                  chunks := st.chunks ++ [bytes] } rs := by
          simp [GetFdReadFunction, ReadResult.size, ReadResult.bytes, ReadResult.errno,
            hpos, hbuf]
        obtain ⟨h1, h2, h3⟩ := ih
          { st with
            buffer := os_store st.buffer 0 bytes, reads := st.reads + 1,
            chunks := st.chunks ++ [bytes] } hlen hr'
        rw [hstep]
        simp only at h1 h2 h3
        refine ⟨by omega, by simp only [List.length_cons]; omega, ?_⟩
        have hk : (GetFdReadFunction
              { st with
                buffer := os_store st.buffer 0 bytes, reads := st.reads + 1,
                chunks := st.chunks ++ [bytes] } rs).reads - st.reads
            = ((GetFdReadFunction
              { st with
                buffer := os_store st.buffer 0 bytes, reads := st.reads + 1,
                chunks := st.chunks ++ [bytes] } rs).reads - (st.reads + 1)) + 1 := by omega
        rw [h3, hk, List.take_succ_cons]
        simp [positiveReads, hemp]
    | fail e =>
      by_cases he : e = EINTR
      · have hstep : GetFdReadFunction st (ReadResult.fail e :: rs)
            = GetFdReadFunction { st with errno := e, reads := st.reads + 1 } rs := by
          simp [GetFdReadFunction, ReadResult.size, ReadResult.bytes, ReadResult.errno,
            os_store, he]
        obtain ⟨h1, h2, h3⟩ := ih { st with errno := e, reads := st.reads + 1 } hb hr'
        rw [hstep]
        simp only at h1 h2 h3
        refine ⟨by omega, by simp only [List.length_cons]; omega, ?_⟩
        have hk : (GetFdReadFunction { st with errno := e, reads := st.reads + 1 } rs).reads
              - st.reads
            = ((GetFdReadFunction { st with errno := e, reads := st.reads + 1 } rs).reads
                - (st.reads + 1)) + 1 := by omega
        rw [h3, hk, List.take_succ_cons]
        simp [positiveReads]
      · have hstep : GetFdReadFunction st (ReadResult.fail e :: rs)
            = { st with errno := e, reads := st.reads + 1, stopped := true } := by
          simp [GetFdReadFunction, ReadResult.size, ReadResult.bytes, ReadResult.errno,
            os_store, he]
        rw [hstep]
        simp [positiveReads]

/-- With `errno` equal to `EINTR`, reads that return zero are retried: none of
them stops the loop. -/
theorem forwarder_spin (n : Nat) (st : Forwarder) (he : st.errno = EINTR) :
    GetFdReadFunction st (List.replicate n (ReadResult.ok []))
      = { st with reads := st.reads + n } := by
  induction n generalizing st with
  | zero => simp [GetFdReadFunction]
  | succ n ih =>
    have hstep : GetFdReadFunction st (ReadResult.ok [] :: List.replicate n (ReadResult.ok []))
        = GetFdReadFunction { st with reads := st.reads + 1 }
            (List.replicate n (ReadResult.ok [])) := by
      simp [GetFdReadFunction, ReadResult.size, ReadResult.bytes, ReadResult.errno,
        os_store, he]
    rw [List.replicate_succ, hstep, ih { st with reads := st.reads + 1 } he]
    simp only [Forwarder.mk.injEq, and_true, true_and]
    omega

/-- While every non-positive read leaves `errno` at `EINTR` the loop makes
every read, calls `cb` with the bytes of each positive one and does not stop. -/
theorem forwarder_run_retried (rs : List ReadResult) (st : Forwarder)
    (hb : st.buffer.length = PIPE_BUF) (hr : ∀ r ∈ rs, r.bytes.length ≤ PIPE_BUF)
    (hgo : retried st.errno rs) :
    (GetFdReadFunction st rs).stopped = st.stopped ∧
    (GetFdReadFunction st rs).reads = st.reads + rs.length ∧
    (GetFdReadFunction st rs).chunks = st.chunks ++ positiveReads rs ∧
    (GetFdReadFunction st rs).errno = errnoAfter st.errno rs ∧
    (GetFdReadFunction st rs).buffer.length = PIPE_BUF := by
  induction rs generalizing st with
  | nil => simp [GetFdReadFunction, positiveReads, errnoAfter, hb]
  | cons r rs ih =>
    have hr' : ∀ r ∈ rs, r.bytes.length ≤ PIPE_BUF := fun x hx => hr x (List.mem_cons_of_mem _ hx)
    have hrl : r.bytes.length ≤ PIPE_BUF := hr r (List.mem_cons_self _ _)
    obtain ⟨hgo1, hgo2⟩ := hgo
    cases r with
    | ok bytes =>
      simp only [ReadResult.errno] at hgo1 hgo2
      by_cases hemp : bytes = []
      · subst hemp
        have he : st.errno = EINTR := hgo1 (by simp [ReadResult.size])
        have hstep : GetFdReadFunction st (ReadResult.ok [] :: rs)
            = GetFdReadFunction { st with reads := st.reads + 1 } rs := by
          simp [GetFdReadFunction, ReadResult.size, ReadResult.bytes, ReadResult.errno,
            os_store, he]
        obtain ⟨h1, h2, h3, h4, h5⟩ := ih { st with reads := st.reads + 1 } hb hr' hgo2
        rw [hstep]
        simp only at h1 h2 h3 h4 h5
        refine ⟨h1, by rw [h2, List.length_cons]; omega, ?_, ?_, h5⟩
        · rw [h3]; simp [positiveReads]
        · rw [h4]; simp [errnoAfter, ReadResult.errno]
      · have hpos : ¬ ((bytes.length : Int) ≤ 0) := by
          have : 0 < bytes.length := List.length_pos.mpr hemp
          omega
        have hbuf : (os_store st.buffer 0 bytes).take bytes.length = bytes := by
          simp only [ReadResult.bytes] at hrl
          rw [os_store_eq _ _ _ (by omega)]
          simp
        have hlen : (os_store st.buffer 0 bytes).length = PIPE_BUF := by
          rw [os_store_length, hb]
        have hstep : GetFdReadFunction st (ReadResult.ok bytes :: rs)
            = GetFdReadFunction
                { st with
                  buffer := os_store st.buffer 0 bytes, reads := st.reads + 1,
                  chunks := st.chunks ++ [bytes] } rs := by
          simp [GetFdReadFunction, ReadResult.size, ReadResult.bytes, ReadResult.errno,
            hpos, hbuf]
        obtain ⟨h1, h2, h3, h4, h5⟩ := ih
          { st with
            buffer := os_store st.buffer 0 bytes, reads := st.reads + 1,
            chunks := st.chunks ++ [bytes] } hlen hr' hgo2
        rw [hstep]
        simp only at h1 h2 h3 h4 h5
        refine ⟨h1, by rw [h2, List.length_cons]; omega, ?_, ?_, h5⟩
        · rw [h3]; simp [positiveReads, hemp]
        · rw [h4]; simp [errnoAfter, ReadResult.errno]
    | fail e =>
      simp only [ReadResult.errno] at hgo1 hgo2
      have he : e = EINTR := hgo1 (by simp [ReadResult.size])
      have hstep : GetFdReadFunction st (ReadResult.fail e :: rs)
          = GetFdReadFunction { st with errno := e, reads := st.reads + 1 } rs := by
        simp [GetFdReadFunction, ReadResult.size, ReadResult.bytes, ReadResult.errno,
          os_store, he]
      obtain ⟨h1, h2, h3, h4, h5⟩ := ih { st with errno := e, reads := st.reads + 1 } hb hr' hgo2
      rw [hstep]
      simp only at h1 h2 h3 h4 h5
      refine ⟨h1, by rw [h2, List.length_cons]; omega, ?_, ?_, h5⟩
      · rw [h3]; simp [positiveReads]
      · rw [h4]; simp [errnoAfter, ReadResult.errno]

/-- Reads that are all retried or delivered can be run first: the loop carries
on from the state they leave. -/
theorem forwarder_run_append (pre rest : List ReadResult) (st : Forwarder)
    (hgo : retried st.errno pre) :
    GetFdReadFunction st (pre ++ rest) = GetFdReadFunction (GetFdReadFunction st pre) rest := by
  induction pre generalizing st with
  | nil => simp [GetFdReadFunction]
  | cons r pre ih =>
    obtain ⟨hgo1, hgo2⟩ := hgo
    by_cases hsz : r.size ≤ 0
    · have he : r.errno st.errno = EINTR := hgo1 hsz
      have h1 : GetFdReadFunction st (r :: (pre ++ rest))
          = GetFdReadFunction
              { st with
                buffer := os_store st.buffer 0 r.bytes, errno := r.errno st.errno,
                reads := st.reads + 1 } (pre ++ rest) := by
        simp [GetFdReadFunction, hsz, he]
      have h2 : GetFdReadFunction st (r :: pre)
          = GetFdReadFunction
              { st with
                buffer := os_store st.buffer 0 r.bytes, errno := r.errno st.errno,
                reads := st.reads + 1 } pre := by
        simp [GetFdReadFunction, hsz, he]
      rw [List.cons_append, h1, h2]
      exact ih _ hgo2
    · have h1 : GetFdReadFunction st (r :: (pre ++ rest))
          = GetFdReadFunction
              { st with
                buffer := os_store st.buffer 0 r.bytes, errno := r.errno st.errno,
                reads := st.reads + 1,
                chunks := st.chunks ++ [(os_store st.buffer 0 r.bytes).take r.size.toNat] }
              (pre ++ rest) := by
        simp [GetFdReadFunction, hsz]
      have h2 : GetFdReadFunction st (r :: pre)
          = GetFdReadFunction
              { st with
                buffer := os_store st.buffer 0 r.bytes, errno := r.errno st.errno,
                reads := st.reads + 1,
                chunks := st.chunks ++ [(os_store st.buffer 0 r.bytes).take r.size.toNat] }
              pre := by
        simp [GetFdReadFunction, hsz]
      rw [List.cons_append, h1, h2]
      exact ih _ hgo2

/-- C9: the forwarder delivers exactly what it reads, in order.  For every
sequence `rs` of read outcomes: the chunks passed to `cb` are the byte
sequences of the positive reads among the reads made, in order, so their
concatenation is the concatenation of those reads, and every chunk has between
1 and `PIPE_BUF` bytes.  The reads made are determined by the outcomes: if
every non-positive read in `rs` leaves `errno` at `EINTR`, the loop has made
all of `rs`, has not stopped and has called `cb` once per positive read of
`rs`; and if `rs` is `pre`, then a non-positive read `r` that leaves `errno`
different from `EINTR`, then `post`, with every non-positive read of `pre`
leaving `errno` at `EINTR`, the loop has stopped at `r` after
`pre.length + 1` reads, having called `cb` once per positive read of `pre` and
not for `r` nor for anything in `post`. -/
theorem forwarder_delivers_reads (buf0 : List Byte) (errno0 : Int) (rs : List ReadResult)
    (hb : buf0.length = PIPE_BUF) (hr : ∀ r ∈ rs, r.bytes.length ≤ PIPE_BUF) :
    (GetFdReadFunction (Forwarder.start buf0 errno0) rs).reads ≤ rs.length ∧
    (GetFdReadFunction (Forwarder.start buf0 errno0) rs).chunks
      = positiveReads (rs.take (GetFdReadFunction (Forwarder.start buf0 errno0) rs).reads) ∧
    (GetFdReadFunction (Forwarder.start buf0 errno0) rs).chunks.flatten
      = (positiveReads
          (rs.take (GetFdReadFunction (Forwarder.start buf0 errno0) rs).reads)).flatten ∧
    (∀ c ∈ (GetFdReadFunction (Forwarder.start buf0 errno0) rs).chunks,
      1 ≤ c.length ∧ c.length ≤ PIPE_BUF) ∧
    (retried errno0 rs →
      (GetFdReadFunction (Forwarder.start buf0 errno0) rs).stopped = false ∧
      (GetFdReadFunction (Forwarder.start buf0 errno0) rs).reads = rs.length ∧
      (GetFdReadFunction (Forwarder.start buf0 errno0) rs).chunks = positiveReads rs) ∧
    (∀ (pre : List ReadResult) (r : ReadResult) (post : List ReadResult),
      rs = pre ++ r :: post → retried errno0 pre → r.size ≤ 0 →
      r.errno (errnoAfter errno0 pre) ≠ EINTR →
        (GetFdReadFunction (Forwarder.start buf0 errno0) rs).stopped = true ∧
        (GetFdReadFunction (Forwarder.start buf0 errno0) rs).reads = pre.length + 1 ∧
        (GetFdReadFunction (Forwarder.start buf0 errno0) rs).chunks = positiveReads pre) := by
  obtain ⟨_, h2, h3⟩ := forwarder_chunks rs (Forwarder.start buf0 errno0) hb hr
  simp only [Forwarder.start, Nat.zero_add, Nat.sub_zero, List.nil_append] at h2 h3
  simp only [Forwarder.start]
  refine ⟨h2, h3, by rw [h3], ?_, ?_, ?_⟩
  · intro c hc
    rw [h3] at hc
    obtain ⟨hne, hmem⟩ := mem_positiveReads _ c hc
    have := hr _ (List.mem_of_mem_take hmem)
    simp only [ReadResult.bytes] at this
    have hpos : 0 < c.length := List.length_pos.mpr hne
    omega
  · intro hgo
    obtain ⟨g1, g2, g3, _, _⟩ := forwarder_run_retried rs
      { buffer := buf0, errno := errno0, chunks := [], reads := 0, stopped := false }
      hb hr hgo
    exact ⟨g1, by simpa using g2, by simpa using g3⟩
  · intro pre r post hrs hgo hsz hne
    have hrp : ∀ x ∈ pre, x.bytes.length ≤ PIPE_BUF := by
      intro x hx
      exact hr x (by rw [hrs]; exact List.mem_append_left _ hx)
    obtain ⟨g1, g2, g3, g4, _⟩ := forwarder_run_retried pre
      { buffer := buf0, errno := errno0, chunks := [], reads := 0, stopped := false }
      hb hrp hgo
    simp only [Nat.zero_add, List.nil_append] at g1 g2 g3 g4
    have hne' : ¬ (r.errno (GetFdReadFunction
        { buffer := buf0, errno := errno0, chunks := [], reads := 0, stopped := false }
        pre).errno = EINTR) := by
      rw [g4]; exact hne
    rw [hrs, forwarder_run_append pre (r :: post) _ hgo]
    simp only [GetFdReadFunction, hsz, if_true, hne', if_false, g2, g3, and_self]

/-- Witness for C9: a read of two bytes, an interrupted read, a read of one
byte, then a read that fails with `EIO`: `cb` has been called with the two
bytes, then with the one byte, and the loop has stopped at the fourth read. -/
theorem forwarder_delivers_reads_witness :
    (GetFdReadFunction (Forwarder.start (List.replicate PIPE_BUF 0) 0)
        [.ok [104, 105], .fail EINTR, .ok [33], .fail 5]).stopped = true ∧
    (GetFdReadFunction (Forwarder.start (List.replicate PIPE_BUF 0) 0)
        [.ok [104, 105], .fail EINTR, .ok [33], .fail 5]).reads = 4 ∧
    (GetFdReadFunction (Forwarder.start (List.replicate PIPE_BUF 0) 0)
        [.ok [104, 105], .fail EINTR, .ok [33], .fail 5]).chunks = [[104, 105], [33]] :=
  (forwarder_delivers_reads (List.replicate PIPE_BUF 0) 0
    [.ok [104, 105], .fail EINTR, .ok [33], .fail 5]
    (List.length_replicate _ _) (by decide)).2.2.2.2.2
    [.ok [104, 105], .fail EINTR, .ok [33]] (.fail 5) [] rfl (by decide) (by decide) (by decide)

/-- C8: the loop does not stop at end of stream once a read has been
interrupted.  After a read that fails with `EINTR`, reads that return zero leave
`errno` at `EINTR` and are all retried: however many of them follow, the loop has
made every read and has not stopped.  (Without the interrupted read the first
zero-length read stops it.) -/
theorem forwarder_retries_end_of_stream (buf0 : List Byte) (n : Nat) :
    (GetFdReadFunction (Forwarder.start buf0 0)
        (.fail EINTR :: .ok [] :: List.replicate n (.ok []))).stopped = false ∧
    (GetFdReadFunction (Forwarder.start buf0 0)
        (.fail EINTR :: .ok [] :: List.replicate n (.ok []))).reads = n + 2 ∧
    (GetFdReadFunction (Forwarder.start buf0 0) [.ok []]).stopped = true := by
  have hstep : GetFdReadFunction (Forwarder.start buf0 0)
        (.fail EINTR :: .ok [] :: List.replicate n (.ok []))
      = GetFdReadFunction
          { buffer := buf0, errno := EINTR, chunks := [], reads := 1, stopped := false }
          (List.replicate (n + 1) (.ok [])) := by
    simp [GetFdReadFunction, Forwarder.start, ReadResult.size, ReadResult.bytes,
      ReadResult.errno, os_store, List.replicate_succ]
  rw [hstep, forwarder_spin _ _ rfl]
  refine ⟨rfl, by simp only; omega, ?_⟩
  simp [GetFdReadFunction, Forwarder.start, ReadResult.size, ReadResult.bytes,
    ReadResult.errno, os_store, EINTR]

/-! ## The input side of `fdbuf` -/

theorem read_size_toNat (r : ReadResult) : (max 0 r.size).toNat = r.bytes.length := by
  cases r <;> simp [ReadResult.size, ReadResult.bytes]

/-- One refill: where the pointers end up, what lies before and after the new
read position, and the single `::read` it issues. -/
theorem underflow_spec (s : fdbuf) (r : ReadResult)
    (hg : s.gptr = s.egptr) (hlen : s.inbuf_.length = bufsize + 16 - sizeof_int)
    (hc : s.gptr ≤ s.inbuf_.length) (hr : r.bytes.length ≤ bufsize) :
    (s.underflow r).1.gptr = min s.gptr 12 ∧
    (s.underflow r).1.egptr = min s.gptr 12 + r.bytes.length ∧
    (s.underflow r).1.inbuf_.take (min s.gptr 12)
      = (s.inbuf_.take s.gptr).drop (s.gptr - min s.gptr 12) ∧
    ((s.underflow r).1.inbuf_.drop (min s.gptr 12)).take r.bytes.length = r.bytes ∧
    (s.underflow r).1.inbuf_.length = s.inbuf_.length ∧
    (s.underflow r).2.2 = [Event.read s.fd_ bufsize] := by
  have hb : bufsize + 16 - sizeof_int = 1036 := rfl
  have hb' : bufsize = 1024 := rfl
  have hp : min (s.gptr - 0) (16 - sizeof_int) = min s.gptr 12 := rfl
  have hst : (s.underflow r).1 =
      { s with
        inbuf_ := os_store (std_copy s.inbuf_ (s.egptr - min s.gptr 12) 0 (min s.gptr 12))
          (min s.gptr 12) r.bytes
        gptr := min s.gptr 12
        egptr := min s.gptr 12 + r.bytes.length } := by
    simp only [fdbuf.underflow, fdbuf.eback, hg, if_true, Nat.zero_add, read_size_toNat]
    rw [← hg, hp]
  have hev : (s.underflow r).2.2 = [Event.read s.fd_ bufsize] := by
    simp [fdbuf.underflow, hg]
  have hcopy : std_copy s.inbuf_ (s.egptr - min s.gptr 12) 0 (min s.gptr 12)
      = (s.inbuf_.drop (s.gptr - min s.gptr 12)).take (min s.gptr 12)
          ++ s.inbuf_.drop (min s.gptr 12) := by
    rw [std_copy_eq _ _ _ _ (Nat.zero_le _) (by omega), ← hg]
    simp
  have hl1 : ((s.inbuf_.drop (s.gptr - min s.gptr 12)).take (min s.gptr 12)).length
      = min s.gptr 12 := by
    rw [List.length_take, List.length_drop]; omega
  have hl2 : (std_copy s.inbuf_ (s.egptr - min s.gptr 12) 0 (min s.gptr 12)).length
      = s.inbuf_.length := std_copy_length _ _ _ _
  have hstore := os_store_eq r.bytes
    (std_copy s.inbuf_ (s.egptr - min s.gptr 12) 0 (min s.gptr 12)) (min s.gptr 12)
    (by rw [hl2]; omega)
  have htake : (std_copy s.inbuf_ (s.egptr - min s.gptr 12) 0 (min s.gptr 12)).take
      (min s.gptr 12) = (s.inbuf_.take s.gptr).drop (s.gptr - min s.gptr 12) := by
    rw [hcopy, List.take_append_of_le_length (by omega), List.take_of_length_le (by omega),
      List.drop_take]
    congr 1
    omega
  rw [hst]
  refine ⟨rfl, rfl, ?_, ?_, ?_, hev⟩
  · simp only
    rw [hstore, List.append_assoc, List.take_append_of_le_length (by simp; omega),
      List.take_take, Nat.min_self, htake]
  · simp only
    have hl3 : (List.take (min s.gptr 12)
        (std_copy s.inbuf_ (s.egptr - min s.gptr 12) 0 (min s.gptr 12))).length
        = min s.gptr 12 := by
      rw [List.length_take, hl2]; omega
    rw [hstore, List.append_assoc, List.drop_append_of_le_length (by omega),
      List.drop_of_length_le (by omega), List.nil_append, List.take_left]
  · simp only
    rw [os_store_length, hl2]

theorem suffix_weaken (X pre D : List Byte) (i j : Nat) (h : X = pre ++ D.drop i)
    (hij : i ≤ j) : ∃ pre', X = pre' ++ D.drop j := by
  refine ⟨pre ++ (D.drop i).take (j - i), ?_⟩
  have e : D.drop j = (D.drop i).drop (j - i) := by
    rw [List.drop_drop]
    congr 1
    omega
  rw [h, e, List.append_assoc, List.take_append_drop]

/-- Delivering the character at the read position keeps the put-back property. -/
theorem advance_keeps (s : fdbuf) (D : List Byte) (h : s.keeps D) (hlt : s.gptr < s.egptr) :
    fdbuf.keeps { s with gptr := s.gptr + 1 } (D ++ [s.inbuf_.getD s.gptr 0]) := by
  obtain ⟨h1, h2, h3, pre, h4⟩ := h
  have hg : s.gptr < s.inbuf_.length := by omega
  have hs : 16 - sizeof_int = 12 := rfl
  obtain ⟨pre', h5⟩ := suffix_weaken _ pre D _ (D.length + 1 - (16 - sizeof_int)) h4 (by omega)
  refine ⟨h1, by simp only; omega, h3, pre', ?_⟩
  simp only [List.length_append, List.length_singleton]
  rw [List.drop_append_of_le_length (by rw [hs]; omega), ← List.append_assoc, ← h5,
    List.take_succ]
  simp [List.getD_eq_getElem, hg]

/-- A refill keeps the put-back property. -/
theorem underflow_keeps (s : fdbuf) (D : List Byte) (r : ReadResult) (h : s.keeps D)
    (hg : s.gptr = s.egptr) (hr : r.bytes.length ≤ bufsize) :
    (s.underflow r).1.keeps D := by
  obtain ⟨h1, h2, h3, pre, h4⟩ := h
  have hb : bufsize + 16 - sizeof_int = 1036 := rfl
  have hb' : bufsize = 1024 := rfl
  have hs : 16 - sizeof_int = 12 := rfl
  obtain ⟨u1, u2, u3, _, u5, _⟩ := underflow_spec s r hg h1 (by omega) hr
  have hc : (s.inbuf_.take s.gptr).length = s.gptr := by
    rw [List.length_take]; omega
  have hL : (D.drop (D.length - (16 - sizeof_int))).length ≤ 12 := by
    rw [List.length_drop, hs]; omega
  have hsum : pre.length + (D.drop (D.length - (16 - sizeof_int))).length = s.gptr := by
    rw [← hc, h4, List.length_append]
  refine ⟨by rw [u5, h1], by rw [u1, u2]; omega, by rw [u2, u5, h1]; omega,
    pre.drop (s.gptr - min s.gptr 12), ?_⟩
  rw [u1, u3, h4, List.drop_append_of_le_length (by omega)]

/-- One `sbumpc` keeps the put-back property, the delivered bytes growing by the
character it returned, if any. -/
theorem sbumpc_keeps (s : fdbuf) (D : List Byte) (r : ReadResult) (h : s.keeps D)
    (hr : r.bytes.length ≤ bufsize) :
    (s.sbumpc r).1.keeps
      (D ++ (if (s.sbumpc r).2.1 = eof then [] else [to_char_type (s.sbumpc r).2.1])) := by
  by_cases hlt : s.gptr < s.egptr
  · have hst : s.sbumpc r
        = ({ s with gptr := s.gptr + 1 }, to_int_type (s.inbuf_.getD s.gptr 0), []) := by
      simp [fdbuf.sbumpc, hlt]
    rw [hst]
    simp only [to_int_type_ne_eof, if_false, to_char_type_to_int_type]
    exact advance_keeps s D h hlt
  · have hg : s.gptr = s.egptr := by
      have := h.2.1
      omega
    have hu := underflow_keeps s D r h hg hr
    have hret : (s.underflow r).2.1
        = if (s.underflow r).1.gptr = (s.underflow r).1.egptr then eof
          else to_int_type ((s.underflow r).1.inbuf_.getD (s.underflow r).1.gptr 0) := rfl
    by_cases he : (s.underflow r).1.gptr = (s.underflow r).1.egptr
    · have hst : s.sbumpc r = ((s.underflow r).1, eof, (s.underflow r).2.2) := by
        simp [fdbuf.sbumpc, hlt, fdbuf.uflow, hret, he]
      rw [hst]
      simpa using hu
    · have hst : s.sbumpc r
          = ({ (s.underflow r).1 with gptr := (s.underflow r).1.gptr + 1 },
              to_int_type ((s.underflow r).1.inbuf_.getD (s.underflow r).1.gptr 0),
              (s.underflow r).2.2) := by
        simp [fdbuf.sbumpc, hlt, fdbuf.uflow, hret, he, to_int_type_ne_eof]
      rw [hst]
      simp only [to_int_type_ne_eof, if_false, to_char_type_to_int_type]
      exact advance_keeps _ D hu (by have := hu.2.1; omega)

theorem bumps_keeps (rs : List ReadResult) (s : fdbuf) (D : List Byte) (h : s.keeps D)
    (hr : ∀ r ∈ rs, r.bytes.length ≤ bufsize) :
    (s.bumps rs).1.keeps (D ++ (s.bumps rs).2.1) := by
  induction rs generalizing s D with
  | nil => simpa [fdbuf.bumps] using h
  | cons r rs ih =>
    have hstep := sbumpc_keeps s D r h (hr r (List.mem_cons_self _ _))
    have := ih (s.sbumpc r).1 _ hstep (fun x hx => hr x (List.mem_cons_of_mem _ hx))
    simpa [fdbuf.bumps, List.append_assoc] using this

/-- Stepping back over bytes that lie before the read position returns them,
most recent first, and makes no system call. -/
theorem ungets_spec (m : Nat) (s : fdbuf) (pre suf : List Byte)
    (hlen : s.gptr ≤ s.inbuf_.length) (h : s.inbuf_.take s.gptr = pre ++ suf)
    (hm : m ≤ suf.length) :
    (s.ungets m).2.1 = (suf.reverse.take m).map to_int_type ∧ (s.ungets m).2.2 = [] := by
  induction m generalizing s suf with
  | zero => simp [fdbuf.ungets]
  | succ m ih =>
    rcases List.eq_nil_or_concat suf with hnil | ⟨suf', b, hsuf⟩
    · subst hnil
      simp at hm
    · rw [List.concat_eq_append] at hsuf
      subst hsuf
      have htl : (s.inbuf_.take s.gptr).length = s.gptr := by
        rw [List.length_take]; omega
      have hgl : s.gptr = (pre ++ suf').length + 1 := by
        rw [← htl, h]; simp only [List.length_append, List.length_singleton]; omega
      have hpos : 0 < s.gptr := by omega
      have hprev : s.inbuf_.take (s.gptr - 1) = pre ++ suf' := by
        have : s.inbuf_.take (s.gptr - 1) = (s.inbuf_.take s.gptr).take (s.gptr - 1) := by
          rw [List.take_take]
          congr 1
          omega
        rw [this, h, ← List.append_assoc, List.take_left' (by omega)]
      have hget : s.inbuf_.getD (s.gptr - 1) 0 = b := by
        have hlt : s.gptr - 1 < s.inbuf_.length := by omega
        have hlt2 : s.gptr - 1 < (s.inbuf_.take s.gptr).length := by omega
        rw [List.getD_eq_getElem _ _ hlt, ← List.getElem_take (j := s.gptr) (h := hlt2)]
        simp only [h, ← List.append_assoc]
        rw [List.getElem_append_right (by omega)]
        simp [hgl]
      have hst : s.sungetc = ({ s with gptr := s.gptr - 1 }, to_int_type b, []) := by
        simp only [fdbuf.sungetc, fdbuf.eback, hpos, if_true, hget]
      have hrec := ih { s with gptr := s.gptr - 1 } suf' (by simp only; omega) hprev
        (by simp only [List.length_append, List.length_singleton] at hm; omega)
      simp only [fdbuf.ungets, hst, hrec.1, hrec.2, List.reverse_append, List.reverse_singleton,
        List.singleton_append, List.take_succ_cons, List.map_cons, List.append_nil, and_self]

/-- C5: a refill keeps the put-back bytes.  For every adapter whose get area
is exhausted with `c` bytes before the read position, `underflow` leaves the
read position at `p = min c 12`, the `p` bytes before it are the last `p` bytes
that preceded the old read position, in order, and the bytes `::read` produced
(none on end of stream or error) follow it.  Hence after any sequence of
`sbumpc` from a fresh adapter, `m ≤ min k 12` calls of `sungetc`, with `k` the
number of bytes delivered, return the last `m` delivered bytes, most recent
first, without any system call. -/
theorem underflow_preserves_putback (s : fdbuf) (r : ReadResult)
    (out0 in0 : List Byte) (fd : Int) (rs : List ReadResult) (m : Nat)
    (hg : s.gptr = s.egptr) (hlen : s.inbuf_.length = bufsize + 16 - sizeof_int)
    (hc : s.gptr ≤ s.inbuf_.length) (hr : r.bytes.length ≤ bufsize)
    (hin : in0.length = bufsize + 16 - sizeof_int)
    (hrs : ∀ x ∈ rs, x.bytes.length ≤ bufsize)
    (hm : m ≤ min ((fdbuf.new out0 in0 fd).1.bumps rs).2.1.length 12) :
    ((s.underflow r).1.gptr = min s.gptr 12 ∧
      (s.underflow r).1.egptr = (s.underflow r).1.gptr + r.bytes.length ∧
      (s.underflow r).1.inbuf_.take (s.underflow r).1.gptr
        = (s.inbuf_.take s.gptr).drop (s.gptr - min s.gptr 12) ∧
      ((s.underflow r).1.inbuf_.drop (s.underflow r).1.gptr).take r.bytes.length = r.bytes) ∧
    ((((fdbuf.new out0 in0 fd).1.bumps rs).1.ungets m).2.1
        = (((fdbuf.new out0 in0 fd).1.bumps rs).2.1.reverse.take m).map to_int_type ∧
      (((fdbuf.new out0 in0 fd).1.bumps rs).1.ungets m).2.2 = []) := by
  constructor
  · obtain ⟨u1, u2, u3, u4, _, _⟩ := underflow_spec s r hg hlen hc hr
    rw [u1]
    exact ⟨rfl, u2, u3, u4⟩
  · have h0 : (fdbuf.new out0 in0 fd).1.keeps [] := by
      rw [fdbuf_new_fst]
      exact ⟨hin, Nat.le_refl _, Nat.zero_le _, [], by simp⟩
    have hk := bumps_keeps rs _ [] h0 hrs
    rw [List.nil_append] at hk
    obtain ⟨_, k2, k3, pre, k4⟩ := hk
    have hs : 16 - sizeof_int = 12 := rfl
    rw [hs] at k4
    have hl : m ≤ (List.drop (((fdbuf.new out0 in0 fd).1.bumps rs).2.1.length - 12)
        ((fdbuf.new out0 in0 fd).1.bumps rs).2.1).length := by
      rw [List.length_drop]; omega
    obtain ⟨r1, r2⟩ := ungets_spec m _ pre _ (by omega) k4 hl
    refine ⟨?_, r2⟩
    rw [r1, List.reverse_drop, List.take_take]
    congr 2
    omega

/-- Witness for C5: a refill after three delivered bytes, and two put-backs
after three bytes delivered over two refills. -/
theorem underflow_preserves_putback_witness :
    ((fdbuf.new (List.replicate bufsize 0) (List.replicate (bufsize + 16 - sizeof_int) 0) 3).1.bumps
        [.ok [10, 20], .ok [], .ok [30]]).2.1 = [10, 20, 30] ∧
    ((((fdbuf.new (List.replicate bufsize 0)
        (List.replicate (bufsize + 16 - sizeof_int) 0) 3).1.bumps
          [.ok [10, 20], .ok [], .ok [30]]).1.ungets 2).2.1
      = (((fdbuf.new (List.replicate bufsize 0)
          (List.replicate (bufsize + 16 - sizeof_int) 0) 3).1.bumps
            [.ok [10, 20], .ok [], .ok [30]]).2.1.reverse.take 2).map to_int_type) :=
  ⟨by decide,
    (underflow_preserves_putback
      { outbuf_ := List.replicate bufsize 0,
        inbuf_ := [1, 2, 3] ++ List.replicate (bufsize + 13 - sizeof_int) 0,
        fd_ := 3, pptr := 0, epptr := bufsize - 1, gptr := 3, egptr := 3 }
      (.ok [4, 5])
      (List.replicate bufsize 0) (List.replicate (bufsize + 16 - sizeof_int) 0) 3
      [.ok [10, 20], .ok [], .ok [30]] 2
      rfl
      (by simp only [List.length_append, List.length_replicate, List.length_cons,
        List.length_nil]; decide)
      (by simp only [List.length_append, List.length_replicate, List.length_cons,
        List.length_nil]; decide)
      (by decide)
      (List.length_replicate _ _) (by decide) (by decide)).2.1⟩

/-! ## `IORedirectServer` -/

theorem socketCalls_append (a b : List Event) :
    socketCalls (a ++ b) = socketCalls a ++ socketCalls b := by
  induction a with
  | nil => rfl
  | cons e t ih => cases e <;> simp [socketCalls, ih]

theorem Obj_fd_new (a : Alloc) (fd : Int) : Obj.fd (some (Obj.new a fd)) = some fd := by
  simp [Obj.fd, Obj.new, fdbuf_new_fst]

/-- Descriptor splitting: whichever step fails, the three `m_real...` members
hold what `dup` returned, the other members are untouched and no socket call is
made. -/
theorem RedirectOutput_spec (s : IORedirectServer) (onStdOut onStdErr : Callback) (env : Env) :
    (s.RedirectOutput onStdOut onStdErr env).1.m_realStdInFd = env.dupIn ∧
    (s.RedirectOutput onStdOut onStdErr env).1.m_realStdOutFd = env.dupOut ∧
    (s.RedirectOutput onStdOut onStdErr env).1.m_realStdErrFd = env.dupErr ∧
    (s.RedirectOutput onStdOut onStdErr env).1.m_sockfd = s.m_sockfd ∧
    socketCalls (s.RedirectOutput onStdOut onStdErr env).2 = [] := by
  unfold IORedirectServer.RedirectOutput
  split
  · simp [socketCalls]
  · split
    · simp [socketCalls]
    · split
      · simp [socketCalls]
      · simp only
        split
        · simp [socketCalls]
        · split
          · simp [socketCalls]
          · split <;> simp [socketCalls]

/-- The result of `WaitForConnection` and what it leaves in the `m_real...`
members, in terms of the outcomes of the calls. -/
theorem WaitForConnection_spec (s : IORedirectServer) (port : Nat) (env : Env) :
    (s.WaitForConnection port env).2.1
      = (if env.listens port then (if env.accept < 0 then -1 else env.accept) else -1) ∧
    (s.WaitForConnection port env).1.m_realStdInFd
      = (if env.listens port then -1 else s.m_realStdInFd) ∧
    (s.WaitForConnection port env).1.m_realStdOutFd
      = (if env.listens port then -1 else s.m_realStdOutFd) ∧
    (s.WaitForConnection port env).1.m_realStdErrFd
      = (if env.listens port then -1 else s.m_realStdErrFd) := by
  unfold IORedirectServer.WaitForConnection Env.listens
  by_cases hp : port = 0
  · simp [hp]
  · by_cases h1 : env.socket < 0
    · have : ¬ (0 ≤ env.socket) := by omega
      simp [hp, h1, this]
    · by_cases h2 : env.setsockopt < 0
      · have : ¬ (0 ≤ env.setsockopt) := by omega
        simp [hp, h1, h2, this]
      · by_cases h3 : env.bind < 0
        · have : ¬ (0 ≤ env.bind) := by omega
          simp [hp, h1, h2, h3, this]
        · have i1 : 0 ≤ env.socket := by omega
          have i2 : 0 ≤ env.setsockopt := by omega
          have i3 : 0 ≤ env.bind := by omega
          by_cases h4 : env.accept < 0
          · simp [hp, h1, h2, h3, h4, i1, i2, i3]
          · simp [hp, h1, h2, h3, h4, i1, i2, i3]

/-- The adapters the constructor builds, in terms of what `WaitForConnection`
returned and left behind. -/
theorem new_adapters (port : Nat) (onStdOut onStdErr : Callback) (env : Env) (io : Streams) :
    (IORedirectServer.new port onStdOut onStdErr env io).1.m_in
      = some (Obj.new env.allocIn
          (if ((IORedirectServer.init.RedirectOutput onStdOut onStdErr env).1.WaitForConnection
                port env).2.1 ≠ -1
            then ((IORedirectServer.init.RedirectOutput onStdOut onStdErr env).1.WaitForConnection
                port env).2.1
            else ((IORedirectServer.init.RedirectOutput onStdOut onStdErr env).1.WaitForConnection
                port env).1.m_realStdInFd)) ∧
    (IORedirectServer.new port onStdOut onStdErr env io).1.m_out
      = some (Obj.new env.allocOut
          (if ((IORedirectServer.init.RedirectOutput onStdOut onStdErr env).1.WaitForConnection
                port env).2.1 ≠ -1
            then ((IORedirectServer.init.RedirectOutput onStdOut onStdErr env).1.WaitForConnection
                port env).2.1
            else ((IORedirectServer.init.RedirectOutput onStdOut onStdErr env).1.WaitForConnection
                port env).1.m_realStdOutFd)) ∧
    (IORedirectServer.new port onStdOut onStdErr env io).1.m_err
      = some (Obj.new env.allocErr
          ((IORedirectServer.init.RedirectOutput onStdOut onStdErr env).1.WaitForConnection
              port env).1.m_realStdErrFd) := by
  unfold IORedirectServer.new
  simp only
  split <;> exact ⟨rfl, rfl, rfl⟩

/-- C1: the destructor does not restore the three bindings.  Whatever the
port, the callbacks and the outcomes of the system calls, after construction
and destruction `std::cin` is bound to its previous buffer, `std::cout` is bound
to the previous buffer of `std::cerr`, and `std::cerr` is still bound to the
session's error adapter. -/
theorem destructor_binds_cout_to_previous_cerr (port : Nat) (onStdOut onStdErr : Callback)
    (env : Env) (io : Streams) (wIn wOut wErr : Int) :
    ((IORedirectServer.new port onStdOut onStdErr env io).1.destroy
        (IORedirectServer.new port onStdOut onStdErr env io).2.1 wIn wOut wErr).1
      = { cin := io.cin, cout := io.cerr, cerr := env.allocErr.addr } := rfl

/-- C6: port 0 means no socket.  `WaitForConnection(0)` returns `-1`, changes
no member and makes no call at all; and the constructor run with port 0 makes no
socket call, leaves `m_sockfd` at `-1` and the three duplicates in place, and
builds the input adapter over the stdin duplicate and the output adapter over
the stdout duplicate. -/
theorem port_zero_uses_duplicates (s : IORedirectServer) (onStdOut onStdErr : Callback)
    (env : Env) (io : Streams) :
    s.WaitForConnection 0 env = (s, -1, []) ∧
    socketCalls (IORedirectServer.new 0 onStdOut onStdErr env io).2.2 = [] ∧
    (IORedirectServer.new 0 onStdOut onStdErr env io).1.m_sockfd = -1 ∧
    (IORedirectServer.new 0 onStdOut onStdErr env io).1.m_realStdInFd = env.dupIn ∧
    (IORedirectServer.new 0 onStdOut onStdErr env io).1.m_realStdOutFd = env.dupOut ∧
    (IORedirectServer.new 0 onStdOut onStdErr env io).1.m_realStdErrFd = env.dupErr ∧
    (IORedirectServer.new 0 onStdOut onStdErr env io).1.m_in
      = some (Obj.new env.allocIn env.dupIn) ∧
    (IORedirectServer.new 0 onStdOut onStdErr env io).1.m_out
      = some (Obj.new env.allocOut env.dupOut) ∧
    Obj.fd (IORedirectServer.new 0 onStdOut onStdErr env io).1.m_in = some env.dupIn ∧
    Obj.fd (IORedirectServer.new 0 onStdOut onStdErr env io).1.m_out = some env.dupOut := by
  have hw : ∀ t : IORedirectServer, t.WaitForConnection 0 env = (t, -1, []) := by
    intro t
    simp [IORedirectServer.WaitForConnection]
  obtain ⟨r1, r2, r3, r4, r5⟩ := RedirectOutput_spec IORedirectServer.init onStdOut onStdErr env
  obtain ⟨a1, a2, _⟩ := new_adapters 0 onStdOut onStdErr env io
  rw [hw] at a1 a2
  simp only [ne_eq, not_true_eq_false, if_false, r1, r2] at a1 a2
  have hfields : (IORedirectServer.new 0 onStdOut onStdErr env io).2.2
        = (IORedirectServer.init.RedirectOutput onStdOut onStdErr env).2 ∧
      (IORedirectServer.new 0 onStdOut onStdErr env io).1.m_sockfd
        = (IORedirectServer.init.RedirectOutput onStdOut onStdErr env).1.m_sockfd ∧
      (IORedirectServer.new 0 onStdOut onStdErr env io).1.m_realStdInFd
        = (IORedirectServer.init.RedirectOutput onStdOut onStdErr env).1.m_realStdInFd ∧
      (IORedirectServer.new 0 onStdOut onStdErr env io).1.m_realStdOutFd
        = (IORedirectServer.init.RedirectOutput onStdOut onStdErr env).1.m_realStdOutFd ∧
      (IORedirectServer.new 0 onStdOut onStdErr env io).1.m_realStdErrFd
        = (IORedirectServer.init.RedirectOutput onStdOut onStdErr env).1.m_realStdErrFd := by
    unfold IORedirectServer.new
    simp only [hw, List.append_nil, ne_eq, not_true_eq_false, if_false, and_self]
  obtain ⟨f1, f2, f3, f4, f5⟩ := hfields
  refine ⟨hw s, by rw [f1, r5], by rw [f2, r4]; rfl, by rw [f3, r1], by rw [f4, r2],
    by rw [f5, r3], a1, a2, by rw [a1, Obj_fd_new], by rw [a2, Obj_fd_new]⟩

/-- C7, as stated, fails: with port 8080, `socket`, `setsockopt` and `bind`
succeeding and `accept` failing, the error adapter is not over the stderr
duplicate, nor are the input and output adapters over the stdin and stdout
duplicates. -/
theorem adapters_not_over_duplicates_after_bind :
    Obj.fd (IORedirectServer.new 8080 1 2 (sampleEnv (-1)) { cin := 1, cout := 2, cerr := 3 }).1.m_err
      ≠ some (sampleEnv (-1)).dupErr ∧
    Obj.fd (IORedirectServer.new 8080 1 2 (sampleEnv (-1)) { cin := 1, cout := 2, cerr := 3 }).1.m_in
      ≠ some (sampleEnv (-1)).dupIn ∧
    Obj.fd (IORedirectServer.new 8080 1 2 (sampleEnv (-1)) { cin := 1, cout := 2, cerr := 3 }).1.m_out
      ≠ some (sampleEnv (-1)).dupOut := by
  decide

/-- C7, amended: each adapter is constructed over what the session holds when
the constructor reaches it.  The error adapter is over the stderr duplicate
unless the construction reached `listen`, in which case the duplicates have been
closed and it is over `-1`.  The input and output adapters are over the stdin
and stdout duplicates when the construction did not reach `listen`, over `-1`
when it did and `accept` failed, and over the accepted descriptor otherwise. -/
theorem adapters_over_current_descriptors (port : Nat) (onStdOut onStdErr : Callback)
    (env : Env) (io : Streams) :
    Obj.fd (IORedirectServer.new port onStdOut onStdErr env io).1.m_err
      = some (if env.listens port then -1 else env.dupErr) ∧
    Obj.fd (IORedirectServer.new port onStdOut onStdErr env io).1.m_in
      = some (if env.listens port then (if env.accept < 0 then -1 else env.accept)
          else env.dupIn) ∧
    Obj.fd (IORedirectServer.new port onStdOut onStdErr env io).1.m_out
      = some (if env.listens port then (if env.accept < 0 then -1 else env.accept)
          else env.dupOut) := by
  obtain ⟨r1, r2, r3, _, _⟩ := RedirectOutput_spec IORedirectServer.init onStdOut onStdErr env
  obtain ⟨w1, w2, w3, w4⟩ := WaitForConnection_spec
    (IORedirectServer.init.RedirectOutput onStdOut onStdErr env).1 port env
  obtain ⟨a1, a2, a3⟩ := new_adapters port onStdOut onStdErr env io
  rw [a1, a2, a3, Obj_fd_new, Obj_fd_new, Obj_fd_new, w1, w2, w3, w4, r1, r2, r3]
  by_cases hl : env.listens port
  · by_cases ha : env.accept < 0
    · simp [hl, ha]
    · have : env.accept ≠ -1 := by omega
      simp [hl, ha, this]
  · simp [hl]

end Netcoredbg
